import Mathlib

/-!
Verification of the batched Chinese-to-English translation pipeline of
`src/fengwen2/translation.py` (class `TranslationService`).

The pipeline operates on JSON-like documents.  We embed the document type,
the Chinese-text extractor (`find_chinese_texts`), the per-batch response
parser and fallback logic (`translate_batch`), the batch fan-out and map
merge (`batch_translate`), the substitution pass (`apply_translations`) and
the orchestrators (`translate_json`, `extract_and_translate_astrology_result`).

Python strings are modelled by Lean `String` (a structure over `List Char`);
`str.strip()` is modelled by `pyStrip` (drops leading/trailing whitespace),
`str.split('\n')` by `pySplit`, `'\n'.join` by `pyJoin`, all defined from
first principles over the character list so that their behaviour matches
Python on the relevant inputs.  Python `dict` values are modelled as
association lists together with an insert-or-update operation that mirrors
dict assignment (update in place if the key exists, else append), and
Python dict iteration order is the list order.  The remote LLM endpoint is
modelled as an oracle `Nat → Option String` giving, for each batch index,
either the response body (`some body`) or an exception during the
request/response cycle (`none`).
-/

namespace Fengwen

/-! ## Python string primitives -/

/-- Model of the check `'一' <= c <= '鿿'` used by `has_chinese`. -/
def isCJK (c : Char) : Bool := 0x4e00 ≤ c.val ∧ c.val ≤ 0x9fff

/-- Source `TranslationService.has_chinese`: `any('一' <= c <= '鿿' for c in text)`. -/
def has_chinese (s : String) : Bool := s.data.any isCJK

/-- Drop trailing whitespace of a character list. -/
def stripTail (cs : List Char) : List Char :=
  (cs.reverse.dropWhile Char.isWhitespace).reverse

/-- Model of Python `str.strip()` on the character list. -/
def pyStripList (cs : List Char) : List Char :=
  stripTail (cs.dropWhile Char.isWhitespace)

/-- Model of Python `str.strip()`. -/
def pyStrip (s : String) : String := ⟨pyStripList s.data⟩

/-- Split a character list on a newline character, Python `str.split('\n')`
semantics: the empty list yields one empty group. -/
def splitChars : List Char → List (List Char)
  | [] => [[]]
  | c :: rest =>
    match splitChars rest with
    | [] => [[]]
    | g :: gs => if c = '\n' then [] :: g :: gs else (c :: g) :: gs

/-- Model of Python `str.split('\n')`. -/
def pySplit (s : String) : List String := (splitChars s.data).map (fun g => ⟨g⟩)

/-- Join character-list groups with a newline, Python `'\n'.join` semantics. -/
def joinChars : List (List Char) → List Char
  | [] => []
  | [g] => g
  | g :: rest => g ++ '\n' :: joinChars rest

/-- Model of Python `'\n'.join(lines)`. -/
def pyJoin (ls : List String) : String := ⟨joinChars (ls.map String.data)⟩

/-! ## Documents -/

/-- JSON-compatible document tree: the dynamic values `translation.py` walks.
Mappings are ordered association lists (Python dict iteration order); the
well-formedness predicate `WFDoc` below captures the dict invariant that keys
are pairwise distinct. -/
inductive Doc where
  | str (s : String)
  | num (n : Int)
  | bool (b : Bool)
  | null
  | arr (items : List Doc)
  | obj (entries : List (String × Doc))

mutual
def docBEq : Doc → Doc → Bool
  | .str a, .str b => a = b
  | .num a, .num b => a = b
  | .bool a, .bool b => a = b
  | .null, .null => true
  | .arr xs, .arr ys => docListBEq xs ys
  | .obj es, .obj fs => docEntriesBEq es fs
  | _, _ => false

def docListBEq : List Doc → List Doc → Bool
  | [], [] => true
  | x :: xs, y :: ys => docBEq x y && docListBEq xs ys
  | _, _ => false

def docEntriesBEq : List (String × Doc) → List (String × Doc) → Bool
  | [], [] => true
  | (k, v) :: es, (k2, v2) :: fs => decide (k = k2) && docBEq v v2 && docEntriesBEq es fs
  | _, _ => false
end

mutual
theorem docBEq_iff : ∀ a b, docBEq a b = true ↔ a = b
  | .str a, b => by cases b <;> simp [docBEq]
  | .num a, b => by cases b <;> simp [docBEq]
  | .bool a, b => by cases b <;> simp [docBEq]
  | .null, b => by cases b <;> simp [docBEq]
  | .arr xs, b => by
    cases b <;> simp [docBEq]
    exact (docListBEq_iff xs _).trans (by simp)
  | .obj es, b => by
    cases b <;> simp [docBEq]
    exact (docEntriesBEq_iff es _).trans (by simp)

theorem docListBEq_iff : ∀ xs ys, docListBEq xs ys = true ↔ xs = ys
  | [], ys => by cases ys <;> simp [docListBEq]
  | x :: xs, ys => by
    cases ys with
    | nil => simp [docListBEq]
    | cons y ys => simp [docListBEq, docBEq_iff x y, docListBEq_iff xs ys]

theorem docEntriesBEq_iff : ∀ es fs, docEntriesBEq es fs = true ↔ es = fs
  | [], fs => by cases fs <;> simp [docEntriesBEq]
  | (k, v) :: es, fs => by
    cases fs with
    | nil => simp [docEntriesBEq]
    | cons p fs =>
      obtain ⟨k2, v2⟩ := p
      simp [docEntriesBEq, docBEq_iff v v2, docEntriesBEq_iff es fs]
end

instance : DecidableEq Doc := fun a b =>
  decidable_of_iff (docBEq a b = true) (docBEq_iff a b)

mutual
/-- Nesting depth of a document (scalars are depth 0, each container adds 1). -/
def depth : Doc → Nat
  | .str _ => 0
  | .num _ => 0
  | .bool _ => 0
  | .null => 0
  | .arr items => 1 + depthList items
  | .obj es => 1 + depthEntries es

def depthList : List Doc → Nat
  | [] => 0
  | d :: rest => max (depth d) (depthList rest)

def depthEntries : List (String × Doc) → Nat
  | [] => 0
  | (_, v) :: rest => max (depth v) (depthEntries rest)
end

/-! ## Extraction: `TranslationService.find_chinese_texts` -/

mutual
/-- Raw unit stream of the inner `extract` closure of `find_chinese_texts`,
in traversal order and before deduplication: dictionary keys containing CJK
are emitted stripped; string leaves containing CJK are split into stripped
lines (each qualifying line emitted) followed by the whole stripped string. -/
def extractDoc : Doc → List String
  | .str s =>
    if has_chinese s ∧ pyStrip s ≠ "" then
      ((pySplit (pyStrip s)).map pyStrip).filter (fun line => has_chinese line ∧ line ≠ "") ++
        (if has_chinese (pyStrip s) then [pyStrip s] else [])
    else []
  | .num _ => []
  | .bool _ => []
  | .null => []
  | .arr items => extractList items
  | .obj es => extractEntries es

def extractList : List Doc → List String
  | [] => []
  | d :: rest => extractDoc d ++ extractList rest

def extractEntries : List (String × Doc) → List String
  | [] => []
  | (k, v) :: rest =>
    (if has_chinese k ∧ pyStrip k ≠ "" then [pyStrip k] else []) ++
      extractDoc v ++ extractEntries rest
end

/-- Model of `list(dict.fromkeys(...))`: first-occurrence-preserving
deduplication, written with an accumulator of already-seen strings. -/
def dedupAux (seen : List String) : List String → List String
  | [] => []
  | x :: rest => if x ∈ seen then dedupAux seen rest else x :: dedupAux (x :: seen) rest

/-- Source `TranslationService.find_chinese_texts`:
`list(dict.fromkeys(text for text in texts if text.strip()))` applied to the
raw unit stream. -/
def find_chinese_texts (d : Doc) : List String :=
  dedupAux [] ((extractDoc d).filter (fun t => pyStrip t ≠ ""))

/-! ## Translation maps (Python dict of str to str) -/

/-- Association-list lookup modelling Python `dict.get` / `in`. -/
def lookupS : List (String × String) → String → Option String
  | [], _ => none
  | (a, b) :: rest, k => if a = k then some b else lookupS rest k

/-- Python dict assignment `m[k] = v`: update in place if the key exists
(keeping the original key and position), else append. -/
def strInsert : List (String × String) → String → String → List (String × String)
  | [], k, v => [(k, v)]
  | (a, b) :: rest, k, v => if a = k then (a, v) :: rest else (a, b) :: strInsert rest k v

/-- Python `acc.update(m)`: insert every entry of `m` into `acc` in order. -/
def insertAll (acc m : List (String × String)) : List (String × String) :=
  m.foldl (fun a kv => strInsert a kv.1 kv.2) acc

/-- Merge a list of per-batch maps into one map, in list order
(the merge loop at the end of `batch_translate`). -/
def mergeMaps (ms : List (List (String × String))) : List (String × String) :=
  ms.foldl insertAll []

/-! ## Batch translation: `TranslationService.translate_batch` -/

/-- Value of a decimal digit string, modelling Python `int` on the digits
matched by the regex group. -/
def digitsToNat (ds : List Char) : Nat :=
  ds.foldl (fun acc c => acc * 10 + (c.toNat - 48)) 0

/-- Model of `re.match(r'^(\d+)\.\s+(.+)', line.strip())` followed by
`int(match.group(1))` and `match.group(2).strip()`: returns the 1-based
index and the stripped translation text, or `none` if the line does not
match. -/
def parseLine (line : String) : Option (Nat × String) :=
  let l := pyStripList line.data
  let digits := l.takeWhile Char.isDigit
  let rest := l.drop digits.length
  match digits, rest with
  | [], _ => none
  | _ :: _, '.' :: afterDot =>
    let spaces := afterDot.takeWhile Char.isWhitespace
    let content := afterDot.drop spaces.length
    if spaces ≠ [] ∧ content ≠ [] then
      some (digitsToNat digits, pyStrip ⟨content⟩)
    else none
  | _ :: _, _ => none

/-- One iteration of the response-parsing loop of `translate_batch`:
`index = int(group(1)) - 1; if index < len(texts): translations[texts[index]] = ...`.
The subtraction is on Python ints, so a parsed index of `0` gives `index = -1`,
which passes the `index < len(texts)` guard and selects `texts[-1]`, the last
element of the batch (Python negative indexing). -/
def parseStep (texts : List String) (acc : List (String × String)) (line : String) :
    List (String × String) :=
  match parseLine line with
  | none => acc
  | some (n, tr) =>
    if n = 0 then
      match texts.getLast? with
      | some t => strInsert acc t tr
      | none => acc
    else if n - 1 < texts.length then
      match texts.get? (n - 1) with
      | some t => strInsert acc t tr
      | none => acc
    else acc

/-- Parsing loop of `translate_batch` over `result.split('\n')`. -/
def parseResponse (texts : List String) (body : String) : List (String × String) :=
  (pySplit body).foldl (parseStep texts) []

/-- Fallback loop of `translate_batch`: every batch text missing from the
parsed map is mapped to itself. -/
def fillMissing (texts : List String) (m : List (String × String)) :
    List (String × String) :=
  texts.foldl
    (fun acc t =>
      match lookupS acc t with
      | some _ => acc
      | none => strInsert acc t t)
    m

/-- Source `TranslationService.translate_batch` for one batch.  The remote
call and JSON decoding are represented by `response`: `some body` is the
completion text, `none` is any exception raised during the request/response
cycle, which the `except` clause turns into the identity mapping
`{text: text for text in texts}`. -/
def translate_batch (texts : List String) (response : Option String) :
    List (String × String) :=
  if texts.isEmpty then []
  else
    match response with
    | none => texts.foldl (fun acc t => strInsert acc t t) []
    | some body => fillMissing texts (parseResponse texts body)

/-! ## Fan-out: `TranslationService.batch_translate` -/

/-- Batching loop `for i in range(0, len(texts), self.batch_size)` with the
fixed `batch_size = 2`. -/
def pyChunk : List String → List (List String)
  | [] => []
  | [x] => [[x]]
  | x :: y :: rest => [x, y] :: pyChunk rest

/-- Per-batch result maps, one per chunk, the i-th batch receiving the i-th
oracle response (each remote call is independent). -/
def batchMaps (oracle : Nat → Option String) (texts : List String) :
    List (List (String × String)) :=
  (pyChunk texts).enum.map (fun p => translate_batch p.2 (oracle p.1))

/-- Source `TranslationService.batch_translate`: split into batches of 2,
translate every batch, and merge all per-batch maps (the `gather` returns
the batch results in task order and `all_translations.update(batch_result)`
folds them together). -/
def batch_translate (oracle : Nat → Option String) (texts : List String) :
    List (String × String) :=
  if texts.isEmpty then []
  else mergeMaps (batchMaps oracle texts)

/-! ## Substitution: `TranslationService.apply_translations` -/

/-- Key replacement used for dictionary keys:
`translations.get(k.strip(), k) if isinstance(k, str) and has_chinese(k) else k`. -/
def newKey (t : List (String × String)) (k : String) : String :=
  if has_chinese k then (lookupS t (pyStrip k)).getD k else k

/-- Python dict assignment for document dictionaries, as in `strInsert`. -/
def dictInsert : List (String × Doc) → String → Doc → List (String × Doc)
  | [], k, v => [(k, v)]
  | (a, b) :: rest, k, v => if a = k then (a, v) :: rest else (a, b) :: dictInsert rest k v

/-- Rebuilding `result = {}` by successive dict assignments `result[new_key] = ...`. -/
def dictBuild (pairs : List (String × Doc)) : List (String × Doc) :=
  pairs.foldl (fun acc kv => dictInsert acc kv.1 kv.2) []

mutual
/-- Source `TranslationService.apply_translations`: dictionary keys are
replaced through `newKey` and the dictionary is rebuilt by assignment;
string leaves containing CJK are first matched whole (stripped), otherwise
split on newline, each line looked up stripped with the raw line as default,
and rejoined only if the looked-up lines differ from the stripped lines. -/
def apply_translations (t : List (String × String)) : Doc → Doc
  | .str s =>
    if has_chinese s then
      match lookupS t (pyStrip s) with
      | some tr => .str tr
      | none =>
        let lines := pySplit s
        let translated := lines.map (fun line => (lookupS t (pyStrip line)).getD line)
        if translated ≠ lines.map pyStrip then .str (pyJoin translated) else .str s
    else .str s
  | .num n => .num n
  | .bool b => .bool b
  | .null => .null
  | .arr items => .arr (applyList t items)
  | .obj es => .obj (dictBuild (applyEntries t es))

def applyList (t : List (String × String)) : List Doc → List Doc
  | [] => []
  | d :: rest => apply_translations t d :: applyList t rest

def applyEntries (t : List (String × String)) :
    List (String × Doc) → List (String × Doc)
  | [] => []
  | (k, v) :: rest => (newKey t k, apply_translations t v) :: applyEntries t rest
end

/-! ## Orchestrators -/

/-- Source `TranslationService.translate_json`: extract, short-circuit on no
units, otherwise batch-translate and substitute. -/
def translate_json (oracle : Nat → Option String) (data : Doc) : Doc :=
  let chinese_texts := find_chinese_texts data
  if chinese_texts.isEmpty then data
  else apply_translations (batch_translate oracle chinese_texts) data

/-- Python truthiness of a document value (`if not astrology_data`). -/
def pyTruthy : Doc → Bool
  | .str s => !s.isEmpty
  | .num n => decide (n ≠ 0)
  | .bool b => b
  | .null => false
  | .arr items => !items.isEmpty
  | .obj es => !es.isEmpty

/-- Source `TranslationService.extract_and_translate_astrology_result`:
returns `None` on falsy input, else translates. -/
def extract_and_translate_astrology_result (oracle : Nat → Option String) (d : Doc) :
    Option Doc :=
  if pyTruthy d then some (translate_json oracle d) else none

/-! ## Semantic predicates used in the claim statements -/

/-- Boolean pairwise-distinctness of a list of strings. -/
def nodupB : List String → Bool
  | [] => true
  | x :: rest => !(decide (x ∈ rest)) && nodupB rest

mutual
/-- Well-formedness of a document as a Python value: every dictionary in the
tree has pairwise-distinct keys (true of every dict Python can build). -/
def WFDoc : Doc → Bool
  | .str _ => true
  | .num _ => true
  | .bool _ => true
  | .null => true
  | .arr items => WFList items
  | .obj es => nodupB (es.map Prod.fst) && WFEntries es

def WFList : List Doc → Bool
  | [] => true
  | d :: rest => WFDoc d && WFList rest

def WFEntries : List (String × Doc) → Bool
  | [] => true
  | (_, v) :: rest => WFDoc v && WFEntries rest
end

mutual
/-- Every CJK-containing string leaf and dictionary key of the document is
already stripped (carries no leading or trailing whitespace). -/
def trimmedCJK : Doc → Bool
  | .str s => !has_chinese s || decide (pyStrip s = s)
  | .num _ => true
  | .bool _ => true
  | .null => true
  | .arr items => trimmedCJKList items
  | .obj es => trimmedCJKEntries es

def trimmedCJKList : List Doc → Bool
  | [] => true
  | d :: rest => trimmedCJK d && trimmedCJKList rest

def trimmedCJKEntries : List (String × Doc) → Bool
  | [] => true
  | (k, v) :: rest =>
    (!has_chinese k || decide (pyStrip k = k)) && trimmedCJK v && trimmedCJKEntries rest
end

mutual
/-- Every CJK string leaf and CJK dictionary key of the document has a map
entry under its stripped form. -/
def coveredCJK (m : List (String × String)) : Doc → Bool
  | .str s => !has_chinese s || (lookupS m (pyStrip s)).isSome
  | .num _ => true
  | .bool _ => true
  | .null => true
  | .arr items => coveredCJKList m items
  | .obj es => coveredCJKEntries m es

def coveredCJKList (m : List (String × String)) : List Doc → Bool
  | [] => true
  | d :: rest => coveredCJK m d && coveredCJKList m rest

def coveredCJKEntries (m : List (String × String)) : List (String × Doc) → Bool
  | [] => true
  | (k, v) :: rest =>
    (!has_chinese k || (lookupS m (pyStrip k)).isSome) && coveredCJK m v &&
      coveredCJKEntries m rest
end

mutual
/-- No dictionary key anywhere in the document contains CJK characters. -/
def noCJKKeys : Doc → Bool
  | .str _ => true
  | .num _ => true
  | .bool _ => true
  | .null => true
  | .arr items => noCJKKeysList items
  | .obj es => noCJKKeysEntries es

def noCJKKeysList : List Doc → Bool
  | [] => true
  | d :: rest => noCJKKeys d && noCJKKeysList rest

def noCJKKeysEntries : List (String × Doc) → Bool
  | [] => true
  | (k, v) :: rest => !has_chinese k && noCJKKeys v && noCJKKeysEntries rest
end

mutual
/-- Within every dictionary of the document, the keys remain pairwise
distinct after translation through `newKey`: rebuilding the dict by
assignment then loses no entry. -/
def noCollide (t : List (String × String)) : Doc → Bool
  | .str _ => true
  | .num _ => true
  | .bool _ => true
  | .null => true
  | .arr items => noCollideList t items
  | .obj es => nodupB (es.map (fun kv => newKey t kv.1)) && noCollideEntries t es

def noCollideList (t : List (String × String)) : List Doc → Bool
  | [] => true
  | d :: rest => noCollide t d && noCollideList t rest

def noCollideEntries (t : List (String × String)) : List (String × Doc) → Bool
  | [] => true
  | (_, v) :: rest => noCollide t v && noCollideEntries t rest
end

/-- Two maps have disjoint key sets: no key is present in both. -/
def mapsDisj (m₁ m₂ : List (String × String)) : Prop :=
  ∀ k, ¬((lookupS m₁ k).isSome = true ∧ (lookupS m₂ k).isSome = true)

mutual
/-- Shape equality modulo translation: the two documents have the same
constructors, the same list lengths and the same nesting everywhere;
dictionary keys of the second are the `newKey`-translations of the first
(so non-CJK keys are equal); numbers, booleans and nulls are equal; string
leaf content is unconstrained. -/
def sameShape (t : List (String × String)) : Doc → Doc → Prop
  | .str _, .str _ => True
  | .num n, .num n2 => n = n2
  | .bool b, .bool b2 => b = b2
  | .null, .null => True
  | .arr xs, .arr ys => sameShapeList t xs ys
  | .obj es, .obj fs => sameShapeEntries t es fs
  | _, _ => False

def sameShapeList (t : List (String × String)) : List Doc → List Doc → Prop
  | [], [] => True
  | x :: xs, y :: ys => sameShape t x y ∧ sameShapeList t xs ys
  | _, _ => False

def sameShapeEntries (t : List (String × String)) :
    List (String × Doc) → List (String × Doc) → Prop
  | [], [] => True
  | (k, v) :: es, (k2, v2) :: fs =>
    k2 = newKey t k ∧ sameShape t v v2 ∧ sameShapeEntries t es fs
  | _, _ => False
end

/-! ## String model lemmas -/

theorem data_mk (l : List Char) : (⟨l⟩ : String).data = l := rfl

theorem mk_data (s : String) : (⟨s.data⟩ : String) = s := by
  obtain ⟨l⟩ := s; rfl

theorem eq_empty_iff_data {s : String} : s = "" ↔ s.data = [] := by
  constructor
  · rintro rfl; rfl
  · intro h
    obtain ⟨l⟩ := s
    simp only [data_mk] at h
    rw [h]

/-- CJK ideographs are not Python whitespace, hence survive `strip`. -/
theorem isCJK_not_whitespace {c : Char} (h : isCJK c = true) : c.isWhitespace = false := by
  simp only [isCJK, decide_eq_true_eq] at h
  obtain ⟨h₁, -⟩ := h
  by_contra hw
  rw [Bool.not_eq_false] at hw
  simp only [Char.isWhitespace, Bool.or_eq_true, decide_eq_true_eq] at hw
  rcases hw with ((rfl | rfl) | rfl) | rfl <;> exact absurd h₁ (by decide)

theorem mem_dropWhile_of_mem {α : Type} {p : α → Bool} {c : α} :
    ∀ {l : List α}, c ∈ l → p c = false → c ∈ l.dropWhile p
  | [], h, _ => absurd h (by simp)
  | a :: rest, h, hpc => by
    by_cases hpa : p a
    · rw [List.dropWhile_cons_of_pos hpa]
      rcases List.mem_cons.mp h with rfl | hmem
      · rw [hpa] at hpc; cases hpc
      · exact mem_dropWhile_of_mem hmem hpc
    · rwa [List.dropWhile_cons_of_neg hpa]

theorem mem_pyStripList_of_mem {c : Char} {l : List Char} (h : c ∈ l)
    (hc : c.isWhitespace = false) : c ∈ pyStripList l := by
  unfold pyStripList stripTail
  rw [List.mem_reverse]
  exact mem_dropWhile_of_mem (List.mem_reverse.mpr (mem_dropWhile_of_mem h hc)) hc

theorem mem_of_mem_pyStripList {c : Char} {l : List Char} (h : c ∈ pyStripList l) :
    c ∈ l := by
  unfold pyStripList stripTail at h
  rw [List.mem_reverse] at h
  have h₂ := List.dropWhile_subset (l := (l.dropWhile Char.isWhitespace).reverse)
    Char.isWhitespace h
  rw [List.mem_reverse] at h₂
  exact List.dropWhile_subset Char.isWhitespace h₂

theorem has_chinese_pyStrip {s : String} (h : has_chinese s = true) :
    has_chinese (pyStrip s) = true := by
  simp only [has_chinese, List.any_eq_true] at h ⊢
  obtain ⟨c, hc, hcjk⟩ := h
  exact ⟨c, mem_pyStripList_of_mem hc (isCJK_not_whitespace hcjk), hcjk⟩

theorem has_chinese_of_pyStrip {s : String} (h : has_chinese (pyStrip s) = true) :
    has_chinese s = true := by
  simp only [has_chinese, List.any_eq_true] at h ⊢
  obtain ⟨c, hc, hcjk⟩ := h
  exact ⟨c, mem_of_mem_pyStripList hc, hcjk⟩

theorem pyStrip_ne_empty_of_chinese {s : String} (h : has_chinese s = true) :
    pyStrip s ≠ "" := by
  intro he
  have h₂ := has_chinese_pyStrip h
  rw [he] at h₂
  cases h₂

theorem dropWhile_dropWhile {α : Type} {p : α → Bool} :
    ∀ l : List α, (l.dropWhile p).dropWhile p = l.dropWhile p
  | [] => rfl
  | a :: rest => by
    by_cases hpa : p a
    · rw [List.dropWhile_cons_of_pos hpa]
      exact dropWhile_dropWhile rest
    · rw [List.dropWhile_cons_of_neg hpa, List.dropWhile_cons_of_neg hpa]

theorem dropWhile_eq_self_head {α : Type} {p : α → Bool} {a : α} {l : List α}
    (h : (a :: l).dropWhile p = a :: l) : p a = false := by
  by_cases hpa : p a
  · rw [List.dropWhile_cons_of_pos hpa] at h
    have hlen := congrArg List.length h
    have hle := (List.dropWhile_sublist (l := l) p).length_le
    simp only [List.length_cons] at hlen
    omega
  · simpa using hpa

theorem dropWhile_stripTail {l : List Char}
    (h : l.dropWhile Char.isWhitespace = l) :
    (stripTail l).dropWhile Char.isWhitespace = stripTail l := by
  cases l with
  | nil => rfl
  | cons c rest =>
    have hc : c.isWhitespace = false := dropWhile_eq_self_head h
    have hexp : stripTail (c :: rest) =
        (List.dropWhile Char.isWhitespace (rest.reverse ++ [c])).reverse := by
      unfold stripTail; rw [List.reverse_cons]
    rw [hexp, List.dropWhile_append]
    by_cases he : ((rest.reverse).dropWhile Char.isWhitespace).isEmpty
    · rw [if_pos he]
      simp [List.dropWhile_cons, hc]
    · rw [if_neg he, List.reverse_append]
      simp [List.dropWhile_cons, hc]

theorem pyStripList_idem (l : List Char) : pyStripList (pyStripList l) = pyStripList l := by
  conv_lhs => rw [pyStripList]
  rw [show pyStripList l = stripTail (l.dropWhile Char.isWhitespace) from rfl]
  rw [dropWhile_stripTail (dropWhile_dropWhile l)]
  unfold stripTail
  rw [List.reverse_reverse, dropWhile_dropWhile]

theorem pyStrip_idem (s : String) : pyStrip (pyStrip s) = pyStrip s := by
  show (⟨pyStripList (pyStrip s).data⟩ : String) = pyStrip s
  rw [show (pyStrip s).data = pyStripList s.data from rfl, pyStripList_idem]
  rfl

theorem splitChars_ne_nil : ∀ cs : List Char, splitChars cs ≠ []
  | [] => by simp [splitChars]
  | c :: rest => by
    simp only [splitChars]
    cases h : splitChars rest with
    | nil => simp
    | cons g gs =>
      by_cases hc : c = '\n' <;> simp [hc]

theorem splitChars_cons (c : Char) (rest : List Char) :
    splitChars (c :: rest) =
      match splitChars rest with
      | [] => [[]]
      | g :: gs => if c = '\n' then [] :: g :: gs else (c :: g) :: gs := rfl

theorem joinChars_splitChars : ∀ cs : List Char, joinChars (splitChars cs) = cs
  | [] => rfl
  | c :: rest => by
    have ih := joinChars_splitChars rest
    cases h : splitChars rest with
    | nil => exact absurd h (splitChars_ne_nil rest)
    | cons g gs =>
      rw [h] at ih
      rw [splitChars_cons, h]
      show joinChars (if c = '\n' then [] :: g :: gs else (c :: g) :: gs) = c :: rest
      by_cases hc : c = '\n'
      · subst hc
        rw [if_pos rfl]
        show [] ++ '\n' :: joinChars (g :: gs) = '\n' :: rest
        rw [List.nil_append, ih]
      · rw [if_neg hc]
        cases gs with
        | nil =>
          show c :: g = c :: rest
          have : joinChars [g] = g := rfl
          rw [this] at ih
          rw [ih]
        | cons g2 gs2 =>
          show (c :: g) ++ '\n' :: joinChars (g2 :: gs2) = c :: rest
          have : joinChars (g :: g2 :: gs2) = g ++ '\n' :: joinChars (g2 :: gs2) := rfl
          rw [this] at ih
          rw [List.cons_append, ih]

theorem pyJoin_pySplit (s : String) : pyJoin (pySplit s) = s := by
  unfold pyJoin pySplit
  rw [List.map_map]
  have : (String.data ∘ fun g => (⟨g⟩ : String)) = id := by
    funext g; rfl
  rw [this, List.map_id, joinChars_splitChars, mk_data]

/-! ## Translation map lemmas -/

theorem lookupS_nil (k : String) : lookupS [] k = none := rfl

theorem lookupS_cons (a b : String) (m : List (String × String)) (k : String) :
    lookupS ((a, b) :: m) k = if a = k then some b else lookupS m k := rfl

theorem lookupS_strInsert_self :
    ∀ (m : List (String × String)) (k v : String), lookupS (strInsert m k v) k = some v
  | [], k, v => by simp [strInsert, lookupS]
  | (a, b) :: rest, k, v => by
    by_cases hak : a = k
    · subst hak
      simp [strInsert, lookupS]
    · rw [strInsert, if_neg hak, lookupS_cons, if_neg hak]
      exact lookupS_strInsert_self rest k v

theorem lookupS_strInsert_ne {k2 k : String} (hne : k2 ≠ k) :
    ∀ (m : List (String × String)) (v : String),
      lookupS (strInsert m k v) k2 = lookupS m k2
  | [], v => by
    rw [strInsert, lookupS_cons, if_neg (fun h => hne h.symm), lookupS_nil]
  | (a, b) :: rest, v => by
    by_cases hak : a = k
    · subst hak
      rw [strInsert, if_pos rfl, lookupS_cons, lookupS_cons,
        if_neg (fun h => hne h.symm), if_neg (fun h => hne h.symm)]
    · rw [strInsert, if_neg hak, lookupS_cons, lookupS_cons]
      by_cases hak2 : a = k2
      · rw [if_pos hak2, if_pos hak2]
      · rw [if_neg hak2, if_neg hak2]
        exact lookupS_strInsert_ne hne rest v

theorem isSome_lookupS_strInsert (m : List (String × String)) (k v k2 : String) :
    (lookupS (strInsert m k v) k2).isSome = true ↔
      k2 = k ∨ (lookupS m k2).isSome = true := by
  by_cases hk : k2 = k
  · subst hk
    simp [lookupS_strInsert_self]
  · rw [lookupS_strInsert_ne hk]
    simp [hk]

theorem lookupS_mem : ∀ {m : List (String × String)} {k v : String},
    lookupS m k = some v → (k, v) ∈ m
  | [], _, _, h => by simp [lookupS_nil] at h
  | (a, b) :: rest, k, v, h => by
    rw [lookupS_cons] at h
    by_cases hak : a = k
    · rw [if_pos hak] at h
      subst hak
      obtain rfl : b = v := Option.some.inj h
      exact List.mem_cons_self _ _
    · rw [if_neg hak] at h
      exact List.mem_cons_of_mem _ (lookupS_mem h)

theorem lookupS_eq_none_iff {m : List (String × String)} {k : String} :
    lookupS m k = none ↔ ∀ p ∈ m, p.1 ≠ k := by
  induction m with
  | nil => simp [lookupS_nil]
  | cons p rest ih =>
    obtain ⟨a, b⟩ := p
    rw [lookupS_cons]
    by_cases hak : a = k
    · subst hak
      simp
    · simp [hak, ih]

/-- Keys of an inserted map: preservation of a key predicate. -/
theorem strInsert_keyPred {P : String → Prop} :
    ∀ {m : List (String × String)} {k v : String},
      (∀ p ∈ m, P p.1) → P k → ∀ p ∈ strInsert m k v, P p.1
  | [], k, v, _, hk, p, hp => by
    rw [strInsert] at hp
    rcases List.mem_singleton.mp hp with rfl
    exact hk
  | (a, b) :: rest, k, v, hm, hk, p, hp => by
    by_cases hak : a = k
    · rw [strInsert, if_pos hak] at hp
      rcases List.mem_cons.mp hp with rfl | hmem
      · exact hm (a, b) (List.mem_cons_self _ _)
      · exact hm p (List.mem_cons_of_mem _ hmem)
    · rw [strInsert, if_neg hak] at hp
      rcases List.mem_cons.mp hp with rfl | hmem
      · exact hm (a, b) (List.mem_cons_self _ _)
      · exact strInsert_keyPred (fun q hq => hm q (List.mem_cons_of_mem _ hq)) hk p hmem

theorem keys_strInsert_subset :
    ∀ {m : List (String × String)} {k v : String} {p : String × String},
      p ∈ strInsert m k v → p.1 = k ∨ p.1 ∈ m.map Prod.fst := by
  intro m k v p hp
  have := strInsert_keyPred (P := fun x => x = k ∨ x ∈ m.map Prod.fst)
    (fun q hq => Or.inr (List.mem_map.mpr ⟨q, hq, rfl⟩)) (Or.inl rfl) p hp
  exact this

theorem nodupKeys_strInsert {m : List (String × String)} {k v : String}
    (h : (m.map Prod.fst).Nodup) : ((strInsert m k v).map Prod.fst).Nodup := by
  induction m with
  | nil => simp [strInsert]
  | cons p rest ih =>
    obtain ⟨a, b⟩ := p
    simp only [List.map_cons, List.nodup_cons] at h
    obtain ⟨ha, hrest⟩ := h
    by_cases hak : a = k
    · rw [strInsert, if_pos hak, List.map_cons, List.nodup_cons]
      exact ⟨ha, hrest⟩
    · rw [strInsert, if_neg hak, List.map_cons, List.nodup_cons]
      refine ⟨?_, ih hrest⟩
      intro hmem
      rcases List.mem_map.mp hmem with ⟨q, hq, hq1⟩
      have hq1' : q.1 = a := hq1
      rcases keys_strInsert_subset hq with h1 | h1
      · exact hak (hq1'.symm.trans h1)
      · exact ha (hq1' ▸ h1)

/-- Folds whose every step is either the identity or a `strInsert` preserve
key nodup-ness; all map-building loops in the pipeline have this form. -/
theorem foldl_nodupKeys {β : Type} (step : List (String × String) → β → List (String × String))
    (hstep : ∀ acc x, step acc x = acc ∨ ∃ k v, step acc x = strInsert acc k v) :
    ∀ (l : List β) (m : List (String × String)),
      (m.map Prod.fst).Nodup → (((l.foldl step m)).map Prod.fst).Nodup
  | [], m, hm => hm
  | x :: rest, m, hm => by
    rw [List.foldl_cons]
    refine foldl_nodupKeys step hstep rest (step m x) ?_
    rcases hstep m x with h | ⟨k, v, h⟩
    · rwa [h]
    · rw [h]; exact nodupKeys_strInsert hm

theorem isSome_lookupS_insertAll (m : List (String × String)) :
    ∀ (acc : List (String × String)) (k : String),
      (lookupS (insertAll acc m) k).isSome = true ↔
        (lookupS m k).isSome = true ∨ (lookupS acc k).isSome = true := by
  induction m with
  | nil =>
    intro acc k
    simp [insertAll, lookupS_nil]
  | cons p rest ih =>
    intro acc k
    obtain ⟨a, b⟩ := p
    show (lookupS (insertAll (strInsert acc a b) rest) k).isSome = true ↔ _
    rw [ih (strInsert acc a b) k, isSome_lookupS_strInsert, lookupS_cons]
    by_cases hak : a = k
    · subst hak
      simp
    · simp [hak, fun h : k = a => hak h.symm]
      tauto

theorem lookupS_eq_none_of_keys {m : List (String × String)} {k : String}
    (h : ∀ p ∈ m, p.1 ≠ k) : lookupS m k = none :=
  lookupS_eq_none_iff.mpr h

theorem lookupS_insertAll {m : List (String × String)} (hnd : (m.map Prod.fst).Nodup) :
    ∀ (acc : List (String × String)) (k : String),
      lookupS (insertAll acc m) k =
        match lookupS m k with
        | some v => some v
        | none => lookupS acc k := by
  induction m with
  | nil =>
    intro acc k
    simp [insertAll, lookupS_nil]
  | cons p rest ih =>
    intro acc k
    obtain ⟨a, b⟩ := p
    simp only [List.map_cons, List.nodup_cons] at hnd
    obtain ⟨ha, hrest⟩ := hnd
    show lookupS (insertAll (strInsert acc a b) rest) k = _
    rw [ih hrest (strInsert acc a b) k, lookupS_cons]
    by_cases hak : a = k
    · subst hak
      rw [if_pos rfl]
      have hnone : lookupS rest a = none := by
        refine lookupS_eq_none_of_keys (fun p hp hpk => ?_)
        exact ha (List.mem_map.mpr ⟨p, hp, hpk⟩)
      rw [hnone, lookupS_strInsert_self]
    · rw [if_neg hak]
      cases hr : lookupS rest k
      · rw [lookupS_strInsert_ne (fun h => hak h.symm)]
      · rfl

theorem lookupS_foldl_insertAll {ms : List (List (String × String))}
    (hnd : ∀ m ∈ ms, (m.map Prod.fst).Nodup) :
    ∀ (acc : List (String × String)) (k : String),
      lookupS (ms.foldl insertAll acc) k =
        match lookupS (mergeMaps ms) k with
        | some v => some v
        | none => lookupS acc k := by
  induction ms with
  | nil =>
    intro acc k
    simp [mergeMaps, lookupS_nil]
  | cons m rest ih =>
    intro acc k
    have hm : (m.map Prod.fst).Nodup := hnd m (List.mem_cons_self _ _)
    have hrest : ∀ m2 ∈ rest, (m2.map Prod.fst).Nodup :=
      fun m2 h2 => hnd m2 (List.mem_cons_of_mem _ h2)
    show lookupS (rest.foldl insertAll (insertAll acc m)) k = _
    rw [ih hrest (insertAll acc m) k]
    have hmerge : lookupS (mergeMaps (m :: rest)) k =
        match lookupS (mergeMaps rest) k with
        | some v => some v
        | none => lookupS m k := by
      show lookupS (rest.foldl insertAll (insertAll [] m)) k = _
      rw [ih hrest (insertAll [] m) k, lookupS_insertAll hm]
      cases lookupS (mergeMaps rest) k
      · cases lookupS m k <;> simp [lookupS_nil]
      · rfl
    rw [hmerge, lookupS_insertAll hm]
    cases lookupS (mergeMaps rest) k
    · cases lookupS m k <;> simp [lookupS_nil]
    · rfl

theorem lookupS_mergeMaps_cons {m : List (String × String)}
    {ms : List (List (String × String))} (hm : (m.map Prod.fst).Nodup)
    (hms : ∀ m2 ∈ ms, (m2.map Prod.fst).Nodup) (k : String) :
    lookupS (mergeMaps (m :: ms)) k =
      match lookupS (mergeMaps ms) k with
      | some v => some v
      | none => lookupS m k := by
  show lookupS (ms.foldl insertAll (insertAll [] m)) k = _
  rw [lookupS_foldl_insertAll hms (insertAll [] m) k, lookupS_insertAll hm]
  cases lookupS (mergeMaps ms) k
  · cases lookupS m k <;> simp [lookupS_nil]
  · rfl

theorem isSome_lookupS_mergeMaps (ms : List (List (String × String))) (k : String) :
    (lookupS (mergeMaps ms) k).isSome = true ↔
      ∃ m ∈ ms, (lookupS m k).isSome = true := by
  have main : ∀ (l : List (List (String × String))) (acc : List (String × String)),
      (lookupS (l.foldl insertAll acc) k).isSome = true ↔
        (∃ m ∈ l, (lookupS m k).isSome = true) ∨ (lookupS acc k).isSome = true := by
    intro l
    induction l with
    | nil => intro acc; simp
    | cons m rest ih =>
      intro acc
      show (lookupS (rest.foldl insertAll (insertAll acc m)) k).isSome = true ↔ _
      rw [ih (insertAll acc m), isSome_lookupS_insertAll]
      simp only [List.mem_cons]
      constructor
      · rintro (⟨m2, h2, h3⟩ | h | h)
        · exact Or.inl ⟨m2, Or.inr h2, h3⟩
        · exact Or.inl ⟨m, Or.inl rfl, h⟩
        · exact Or.inr h
      · rintro (⟨m2, rfl | h2, h3⟩ | h)
        · exact Or.inr (Or.inl h3)
        · exact Or.inl ⟨m2, h2, h3⟩
        · exact Or.inr (Or.inr h)
  rw [show mergeMaps ms = ms.foldl insertAll [] from rfl, main ms []]
  simp [lookupS_nil]

/-! ## translate_batch lemmas -/

theorem mem_strInsert : ∀ {m : List (String × String)} {k v : String} {p : String × String},
    p ∈ strInsert m k v → p ∈ m ∨ p = (k, v)
  | [], k, v, p, hp => by
    rw [strInsert] at hp
    exact Or.inr (List.mem_singleton.mp hp)
  | (a, b) :: rest, k, v, p, hp => by
    by_cases hak : a = k
    · subst hak
      rw [strInsert, if_pos rfl] at hp
      rcases List.mem_cons.mp hp with rfl | hmem
      · exact Or.inr rfl
      · exact Or.inl (List.mem_cons_of_mem _ hmem)
    · rw [strInsert, if_neg hak] at hp
      rcases List.mem_cons.mp hp with rfl | hmem
      · exact Or.inl (List.mem_cons_self _ _)
      · rcases mem_strInsert hmem with h | h
        · exact Or.inl (List.mem_cons_of_mem _ h)
        · exact Or.inr h

/-- Exception branch of `translate_batch`: the dict comprehension
`{text: text for text in texts}` contains only identity pairs. -/
theorem idFold_pairs : ∀ (texts : List String) (m : List (String × String)),
    (∀ p ∈ m, p.1 = p.2) →
    ∀ p ∈ texts.foldl (fun acc t => strInsert acc t t) m, p.1 = p.2
  | [], _, hm => hm
  | t :: rest, m, hm => by
    rw [List.foldl_cons]
    refine idFold_pairs rest _ (fun p hp => ?_)
    rcases mem_strInsert hp with h | rfl
    · exact hm p h
    · rfl

theorem isSome_idFold : ∀ (texts : List String) (m : List (String × String)) (k : String),
    (lookupS (texts.foldl (fun acc t => strInsert acc t t) m) k).isSome = true ↔
      k ∈ texts ∨ (lookupS m k).isSome = true
  | [], m, k => by simp
  | t :: rest, m, k => by
    rw [List.foldl_cons, isSome_idFold rest _ k, isSome_lookupS_strInsert]
    simp only [List.mem_cons]
    tauto

theorem fillMissing_cons (t2 : String) (rest : List String) (m : List (String × String)) :
    fillMissing (t2 :: rest) m =
      fillMissing rest
        (match lookupS m t2 with
         | some _ => m
         | none => strInsert m t2 t2) := rfl

theorem lookupS_fillMissing_of_some :
    ∀ (texts : List String) {m : List (String × String)} {t v : String},
      lookupS m t = some v → lookupS (fillMissing texts m) t = some v
  | [], _, _, _, h => h
  | t2 :: rest, m, t, v, h => by
    rw [fillMissing_cons]
    cases h2 : lookupS m t2 with
    | some v2 =>
      simp only [h2]
      exact lookupS_fillMissing_of_some rest h
    | none =>
      simp only [h2]
      refine lookupS_fillMissing_of_some rest ?_
      have ht : t ≠ t2 := by
        rintro rfl
        rw [h] at h2
        cases h2
      rw [lookupS_strInsert_ne ht]
      exact h

theorem lookupS_fillMissing_self :
    ∀ (texts : List String) (m : List (String × String)) {t : String},
      t ∈ texts → lookupS m t = none → lookupS (fillMissing texts m) t = some t
  | [], _, _, hmem, _ => absurd hmem (by simp)
  | t2 :: rest, m, t, hmem, hnone => by
    rw [fillMissing_cons]
    by_cases ht : t = t2
    · subst ht
      rw [hnone]
      exact lookupS_fillMissing_of_some rest (lookupS_strInsert_self m t t)
    · have hr : t ∈ rest := by
        rcases List.mem_cons.mp hmem with h | h
        · exact absurd h ht
        · exact h
      cases h2 : lookupS m t2 with
      | some v2 =>
        simp only [h2]
        exact lookupS_fillMissing_self rest m hr hnone
      | none =>
        simp only [h2]
        refine lookupS_fillMissing_self rest _ hr ?_
        rw [lookupS_strInsert_ne ht]
        exact hnone

theorem isSome_fillMissing_of_mem (texts : List String) (m : List (String × String))
    {t : String} (hmem : t ∈ texts) :
    (lookupS (fillMissing texts m) t).isSome = true := by
  cases h : lookupS m t with
  | some v => rw [lookupS_fillMissing_of_some texts h]; rfl
  | none => rw [lookupS_fillMissing_self texts m hmem h]; rfl

/-- Each iteration of the response-parsing loop either leaves the map alone
(unparseable line, or parsed index beyond the batch) or assigns a translation
to some batch text (1-based in-range index, or the Python `texts[-1]` slip for
a parsed index of 0). -/
theorem parseStep_cases (texts : List String) (acc : List (String × String)) (line : String) :
    parseStep texts acc line = acc ∨
      ∃ t tr, t ∈ texts ∧ parseStep texts acc line = strInsert acc t tr := by
  unfold parseStep
  cases parseLine line with
  | none => exact Or.inl rfl
  | some p =>
    obtain ⟨n, tr⟩ := p
    by_cases hn : n = 0
    · simp only [hn, if_pos]
      cases hlast : List.getLast? texts with
      | none => exact Or.inl rfl
      | some t =>
        exact Or.inr ⟨t, tr, List.mem_of_getLast?_eq_some hlast, rfl⟩
    · simp only [if_neg hn]
      by_cases hlt : n - 1 < texts.length
      · rw [if_pos hlt]
        cases hget : texts.get? (n - 1) with
        | none => exact Or.inl rfl
        | some t => exact Or.inr ⟨t, tr, List.get?_mem hget, rfl⟩
      · rw [if_neg hlt]
        exact Or.inl rfl

/-- Folds whose steps are identity-or-insert-with-good-key keep every key
satisfying the predicate. -/
theorem foldl_keyPred {β : Type} (P : String → Prop)
    (step : List (String × String) → β → List (String × String)) :
    ∀ (l : List β),
      (∀ acc x, x ∈ l → step acc x = acc ∨
        ∃ k v, P k ∧ step acc x = strInsert acc k v) →
      ∀ m : List (String × String), (∀ p ∈ m, P p.1) →
        ∀ p ∈ l.foldl step m, P p.1
  | [], _, _, hm => hm
  | x :: rest, hstep, m, hm => by
    rw [List.foldl_cons]
    refine foldl_keyPred P step rest
      (fun acc y hy => hstep acc y (List.mem_cons_of_mem _ hy)) _ (fun p hp => ?_)
    rcases hstep m x (List.mem_cons_self _ _) with h | ⟨k, v, hk, h⟩
    · rw [h] at hp
      exact hm p hp
    · rw [h] at hp
      rcases mem_strInsert hp with h2 | rfl
      · exact hm p h2
      · exact hk

theorem translate_batch_keys {texts : List String} {r : Option String} :
    ∀ p ∈ translate_batch texts r, p.1 ∈ texts := by
  unfold translate_batch
  by_cases he : texts.isEmpty
  · simp [he]
  · rw [if_neg he]
    cases r with
    | none =>
      refine foldl_keyPred (fun k => k ∈ texts) _ texts
        (fun acc x hx => Or.inr ⟨x, x, hx, rfl⟩) [] (by simp)
    | some body =>
      show ∀ p ∈ fillMissing texts (parseResponse texts body), p.1 ∈ texts
      refine foldl_keyPred (fun k => k ∈ texts) _ texts
        (fun acc x hx => ?_) (parseResponse texts body) ?_
      · cases h : lookupS acc x with
        | some v => exact Or.inl (by simp only [h])
        | none => exact Or.inr ⟨x, x, hx, by simp only [h]⟩
      · refine foldl_keyPred (fun k => k ∈ texts) _ (pySplit body)
          (fun acc line _ => ?_) [] (by simp)
        rcases parseStep_cases texts acc line with h | ⟨t, tr, ht, h⟩
        · exact Or.inl h
        · exact Or.inr ⟨t, tr, ht, h⟩

theorem isSome_translate_batch {texts : List String} (hne : ¬ texts.isEmpty)
    (r : Option String) {t : String} (ht : t ∈ texts) :
    (lookupS (translate_batch texts r) t).isSome = true := by
  unfold translate_batch
  rw [if_neg hne]
  cases r with
  | none =>
    rw [isSome_idFold]
    exact Or.inl ht
  | some body => exact isSome_fillMissing_of_mem texts _ ht

theorem isSome_translate_batch_iff {texts : List String} (hne : ¬ texts.isEmpty)
    (r : Option String) (t : String) :
    (lookupS (translate_batch texts r) t).isSome = true ↔ t ∈ texts := by
  constructor
  · intro h
    obtain ⟨v, hv⟩ := Option.isSome_iff_exists.mp h
    exact translate_batch_keys (t, v) (lookupS_mem hv)
  · exact isSome_translate_batch hne r

/-- Total API failure for a batch: every text maps to itself. -/
theorem translate_batch_none_id {texts : List String} (hne : ¬ texts.isEmpty)
    {t : String} (ht : t ∈ texts) :
    lookupS (translate_batch texts none) t = some t := by
  have hs := isSome_translate_batch hne none ht
  obtain ⟨v, hv⟩ := Option.isSome_iff_exists.mp hs
  have hp := lookupS_mem hv
  have hid : ∀ p ∈ translate_batch texts none, p.1 = p.2 := by
    unfold translate_batch
    rw [if_neg hne]
    exact idFold_pairs texts [] (by simp)
  have := hid (t, v) hp
  simp only at this
  rw [hv, ← this]

theorem nodupKeys_translate_batch (texts : List String) (r : Option String) :
    ((translate_batch texts r).map Prod.fst).Nodup := by
  unfold translate_batch
  by_cases he : texts.isEmpty
  · simp [he]
  · rw [if_neg he]
    cases r with
    | none =>
      exact foldl_nodupKeys _ (fun acc x => Or.inr ⟨x, x, rfl⟩) texts [] (by simp)
    | some body =>
      show ((fillMissing texts (parseResponse texts body)).map Prod.fst).Nodup
      refine foldl_nodupKeys _ (fun acc x => ?_) texts (parseResponse texts body) ?_
      · cases h : lookupS acc x with
        | some v => exact Or.inl (by simp only [h])
        | none => exact Or.inr ⟨x, x, by simp only [h]⟩
      · refine foldl_nodupKeys _ (fun acc line => ?_) (pySplit body) [] (by simp)
        rcases parseStep_cases texts acc line with h | ⟨t, tr, _, h⟩
        · exact Or.inl h
        · exact Or.inr ⟨t, tr, h⟩

/-! ## batch_translate lemmas -/

theorem pyChunk_flatten : ∀ l : List String, (pyChunk l).flatten = l
  | [] => rfl
  | [x] => rfl
  | x :: y :: rest => by
    show x :: y :: (pyChunk rest).flatten = x :: y :: rest
    rw [pyChunk_flatten rest]

theorem mem_pyChunk_of_mem {l : List String} {t : String} (h : t ∈ l) :
    ∃ b ∈ pyChunk l, t ∈ b := by
  rw [← pyChunk_flatten l] at h
  exact List.mem_flatten.mp h

theorem pyChunk_ne_nil : ∀ (l : List String), ∀ b ∈ pyChunk l, ¬ b.isEmpty
  | [], b, hb => by simp [pyChunk] at hb
  | [x], b, hb => by
    rw [pyChunk, List.mem_singleton] at hb
    subst hb
    simp
  | x :: y :: rest, b, hb => by
    rw [pyChunk, List.mem_cons] at hb
    rcases hb with rfl | hb
    · simp
    · exact pyChunk_ne_nil rest b hb

theorem mem_enumFrom_of_mem {α : Type} :
    ∀ {l : List α} {a : α} (n : Nat), a ∈ l → ∃ i, (i, a) ∈ l.enumFrom n
  | [], _, _, h => absurd h (by simp)
  | x :: rest, a, n, h => by
    rcases List.mem_cons.mp h with rfl | hr
    · exact ⟨n, List.mem_cons_self _ _⟩
    · obtain ⟨i, hi⟩ := mem_enumFrom_of_mem (n + 1) hr
      exact ⟨i, List.mem_cons_of_mem _ hi⟩

/-- Coverage of the merged map: every input text has an entry, whatever the
per-batch responses were. -/
theorem isSome_batch_translate (oracle : Nat → Option String) {texts : List String}
    {t : String} (ht : t ∈ texts) :
    (lookupS (batch_translate oracle texts) t).isSome = true := by
  unfold batch_translate
  have hne : ¬ texts.isEmpty := by
    cases texts with
    | nil => cases ht
    | cons a l => simp
  rw [if_neg hne, isSome_lookupS_mergeMaps]
  obtain ⟨b, hb, htb⟩ := mem_pyChunk_of_mem ht
  obtain ⟨i, hi⟩ := mem_enumFrom_of_mem 0 hb
  refine ⟨translate_batch b (oracle i), ?_, ?_⟩
  · exact List.mem_map_of_mem _ hi
  · exact isSome_translate_batch (pyChunk_ne_nil texts b hb) _ htb

theorem batch_translate_pairs_keys {oracle : Nat → Option String} {texts : List String} :
    ∀ p ∈ batch_translate oracle texts, p.1 ∈ texts := by
  unfold batch_translate
  by_cases he : texts.isEmpty
  · simp [he]
  · rw [if_neg he]
    unfold mergeMaps
    have hmaps : ∀ m ∈ batchMaps oracle texts, ∀ p ∈ m, p.1 ∈ texts := by
      intro m hm p hp
      rcases List.mem_map.mp hm with ⟨⟨i, b⟩, hib, rfl⟩
      have hb : b ∈ pyChunk texts := by
        have := List.enumFrom_map_snd 0 (pyChunk texts)
        have hmem : (i, b).2 ∈ (List.enumFrom 0 (pyChunk texts)).map Prod.snd :=
          List.mem_map_of_mem _ hib
        rw [this] at hmem
        exact hmem
      have hkey := translate_batch_keys p hp
      rw [← pyChunk_flatten texts]
      exact List.mem_flatten.mpr ⟨b, hb, hkey⟩
    revert hmaps
    generalize batchMaps oracle texts = ms
    intro hmaps
    have main : ∀ (l : List (List (String × String))) (acc : List (String × String)),
        (∀ m ∈ l, ∀ p ∈ m, p.1 ∈ texts) → (∀ p ∈ acc, p.1 ∈ texts) →
        ∀ p ∈ l.foldl insertAll acc, p.1 ∈ texts := by
      intro l
      induction l with
      | nil => intro acc _ hacc; exact hacc
      | cons m rest ih =>
        intro acc hl hacc
        rw [List.foldl_cons]
        refine ih _ (fun m2 h2 => hl m2 (List.mem_cons_of_mem _ h2)) ?_
        unfold insertAll
        refine foldl_keyPred (fun k => k ∈ texts) _ m
          (fun a q hq => Or.inr ⟨q.1, q.2, hl m (List.mem_cons_self _ _) q hq, rfl⟩)
          acc hacc
    exact main ms [] hmaps (by simp)

/-- All-batches-fail: the merged map consists of identity pairs only. -/
theorem batch_translate_none_pairs {texts : List String} :
    ∀ p ∈ batch_translate (fun _ => none) texts, p.1 = p.2 := by
  unfold batch_translate
  by_cases he : texts.isEmpty
  · simp [he]
  · rw [if_neg he]
    unfold mergeMaps
    have hmaps : ∀ m ∈ batchMaps (fun _ => none) texts, ∀ p ∈ m, p.1 = p.2 := by
      intro m hm p hp
      rcases List.mem_map.mp hm with ⟨⟨i, b⟩, _, rfl⟩
      have hid : ∀ q ∈ translate_batch b none, q.1 = q.2 := by
        unfold translate_batch
        by_cases hb : b.isEmpty
        · simp [hb]
        · rw [if_neg hb]
          exact idFold_pairs b [] (by simp)
      exact hid p hp
    revert hmaps
    generalize batchMaps (fun _ => none) texts = ms
    intro hmaps
    have main : ∀ (l : List (List (String × String))) (acc : List (String × String)),
        (∀ m ∈ l, ∀ p ∈ m, p.1 = p.2) → (∀ p ∈ acc, p.1 = p.2) →
        ∀ p ∈ l.foldl insertAll acc, p.1 = p.2 := by
      intro l
      induction l with
      | nil => intro acc _ hacc; exact hacc
      | cons m rest ih =>
        intro acc hl hacc
        rw [List.foldl_cons]
        refine ih _ (fun m2 h2 => hl m2 (List.mem_cons_of_mem _ h2)) ?_
        intro p hp
        have step : ∀ (a : List (String × String)) (q : String × String),
            q ∈ m → ∀ p2 ∈ strInsert a q.1 q.2, (∀ p3 ∈ a, p3.1 = p3.2) → p2.1 = p2.2 := by
          intro a q hq p2 hp2 ha
          rcases mem_strInsert hp2 with h | rfl
          · exact ha p2 h
          · exact hl m (List.mem_cons_self _ _) q hq
        have gen : ∀ (entries : List (String × String)) (a : List (String × String)),
            (∀ q ∈ entries, q ∈ m) → (∀ p3 ∈ a, p3.1 = p3.2) →
            ∀ p2 ∈ entries.foldl (fun x kv => strInsert x kv.1 kv.2) a, p2.1 = p2.2 := by
          intro entries
          induction entries with
          | nil => intro a _ ha; exact ha
          | cons q qs ihq =>
            intro a hqs ha
            rw [List.foldl_cons]
            refine ihq _ (fun q2 h2 => hqs q2 (List.mem_cons_of_mem _ h2)) ?_
            intro p3 hp3
            exact step a q (hqs q (List.mem_cons_self _ _)) p3 hp3 ha
        exact gen m acc (fun q hq => hq) hacc p hp
    exact main ms [] hmaps (by simp)

/-- All-batches-fail coverage with identity values. -/
theorem batch_translate_none_id (texts : List String) {t : String} (ht : t ∈ texts) :
    lookupS (batch_translate (fun _ => none) texts) t = some t := by
  have hs := isSome_batch_translate (fun _ => none) ht
  obtain ⟨v, hv⟩ := Option.isSome_iff_exists.mp hs
  have := batch_translate_none_pairs (t, v) (lookupS_mem hv)
  simp only at this
  rw [hv, ← this]

/-! ## Extraction lemmas -/

mutual
/-- Every raw extracted unit is a stripped, non-empty, CJK-containing string. -/
theorem extractDoc_units : ∀ (d : Doc), ∀ t ∈ extractDoc d,
    pyStrip t = t ∧ t ≠ "" ∧ has_chinese t = true
  | .str s, t, ht => by
    rw [extractDoc] at ht
    by_cases hc : has_chinese s = true ∧ pyStrip s ≠ ""
    · rw [if_pos hc] at ht
      rcases List.mem_append.mp ht with h | h
      · rcases List.mem_filter.mp h with ⟨hmem, hpred⟩
        rcases List.mem_map.mp hmem with ⟨line, _, rfl⟩
        simp only [decide_eq_true_eq] at hpred
        exact ⟨pyStrip_idem line, hpred.2, hpred.1⟩
      · by_cases hb : has_chinese (pyStrip s) = true
        · rw [if_pos hb] at h
          rcases List.mem_singleton.mp h with rfl
          exact ⟨pyStrip_idem s, hc.2, hb⟩
        · rw [if_neg hb] at h
          cases h
    · rw [if_neg hc] at ht
      cases ht
  | .num _, t, ht => absurd ht (by simp [extractDoc])
  | .bool _, t, ht => absurd ht (by simp [extractDoc])
  | .null, t, ht => absurd ht (by simp [extractDoc])
  | .arr items, t, ht => extractList_units items t ht
  | .obj es, t, ht => extractEntries_units es t ht

theorem extractList_units : ∀ (l : List Doc), ∀ t ∈ extractList l,
    pyStrip t = t ∧ t ≠ "" ∧ has_chinese t = true
  | [], t, ht => absurd ht (by simp [extractList])
  | d :: rest, t, ht => by
    rw [extractList] at ht
    rcases List.mem_append.mp ht with h | h
    · exact extractDoc_units d t h
    · exact extractList_units rest t h

theorem extractEntries_units : ∀ (es : List (String × Doc)), ∀ t ∈ extractEntries es,
    pyStrip t = t ∧ t ≠ "" ∧ has_chinese t = true
  | [], t, ht => absurd ht (by simp [extractEntries])
  | (k, v) :: rest, t, ht => by
    rw [extractEntries] at ht
    rcases List.mem_append.mp ht with h | h
    · rcases List.mem_append.mp h with h2 | h2
      · by_cases hk : has_chinese k = true ∧ pyStrip k ≠ ""
        · rw [if_pos hk] at h2
          rcases List.mem_singleton.mp h2 with rfl
          exact ⟨pyStrip_idem k, hk.2, has_chinese_pyStrip hk.1⟩
        · rw [if_neg hk] at h2
          cases h2
      · exact extractDoc_units v t h2
    · exact extractEntries_units rest t h
end

/-- The whole-block unit of a CJK string leaf is always extracted. -/
theorem block_mem_extractDoc {s : String} (h : has_chinese s = true) :
    pyStrip s ∈ extractDoc (.str s) := by
  rw [extractDoc, if_pos ⟨h, pyStrip_ne_empty_of_chinese h⟩]
  refine List.mem_append_right _ ?_
  rw [if_pos (has_chinese_pyStrip h)]
  exact List.mem_singleton.mpr rfl

/-- The stripped form of a CJK dictionary key is always extracted. -/
theorem key_mem_extractEntries {k : String} (v : Doc) (rest : List (String × Doc))
    (h : has_chinese k = true) : pyStrip k ∈ extractEntries ((k, v) :: rest) := by
  rw [extractEntries]
  refine List.mem_append_left _ (List.mem_append_left _ ?_)
  rw [if_pos ⟨h, pyStrip_ne_empty_of_chinese h⟩]
  exact List.mem_singleton.mpr rfl

/-! ## Deduplication lemmas -/

theorem mem_dedupAux : ∀ (l seen : List String) (x : String),
    x ∈ dedupAux seen l ↔ x ∈ l ∧ x ∉ seen
  | [], seen, x => by simp [dedupAux]
  | y :: rest, seen, x => by
    by_cases hy : y ∈ seen
    · rw [dedupAux, if_pos hy, mem_dedupAux rest seen x]
      constructor
      · rintro ⟨h1, h2⟩
        exact ⟨List.mem_cons_of_mem _ h1, h2⟩
      · rintro ⟨h1, h2⟩
        rcases List.mem_cons.mp h1 with rfl | h1
        · exact absurd hy h2
        · exact ⟨h1, h2⟩
    · rw [dedupAux, if_neg hy]
      constructor
      · intro h
        rcases List.mem_cons.mp h with rfl | h1
        · exact ⟨List.mem_cons_self _ _, hy⟩
        · rw [mem_dedupAux rest (y :: seen) x] at h1
          exact ⟨List.mem_cons_of_mem _ h1.1,
            fun hx => h1.2 (List.mem_cons_of_mem _ hx)⟩
      · rintro ⟨h1, h2⟩
        by_cases hxy : x = y
        · subst hxy
          exact List.mem_cons_self _ _
        · rcases List.mem_cons.mp h1 with rfl | h1
          · exact absurd rfl hxy
          · refine List.mem_cons_of_mem _ ?_
            rw [mem_dedupAux rest (y :: seen) x]
            refine ⟨h1, fun hx => ?_⟩
            rcases List.mem_cons.mp hx with rfl | hx
            · exact hxy rfl
            · exact h2 hx

theorem nodup_dedupAux : ∀ (l seen : List String), (dedupAux seen l).Nodup
  | [], _ => List.nodup_nil
  | y :: rest, seen => by
    by_cases hy : y ∈ seen
    · rw [dedupAux, if_pos hy]
      exact nodup_dedupAux rest seen
    · rw [dedupAux, if_neg hy, List.nodup_cons]
      refine ⟨fun hmem => ?_, nodup_dedupAux rest (y :: seen)⟩
      rw [mem_dedupAux] at hmem
      exact hmem.2 (List.mem_cons_self _ _)

theorem sublist_dedupAux : ∀ (l seen : List String), List.Sublist (dedupAux seen l) l
  | [], _ => List.Sublist.refl []
  | y :: rest, seen => by
    by_cases hy : y ∈ seen
    · rw [dedupAux, if_pos hy]
      exact (sublist_dedupAux rest seen).cons y
    · rw [dedupAux, if_neg hy]
      exact (sublist_dedupAux rest (y :: seen)).cons₂ y

/-- Deduplication lists elements in order of first occurrence: positions in
the output are strictly increasing in first-occurrence index of the input. -/
theorem pairwise_indexOf_dedupAux : ∀ (l seen : List String),
    (dedupAux seen l).Pairwise (fun a b => l.indexOf a < l.indexOf b)
  | [], _ => List.Pairwise.nil
  | y :: rest, seen => by
    by_cases hy : y ∈ seen
    · rw [dedupAux, if_pos hy]
      refine ((pairwise_indexOf_dedupAux rest seen).imp_of_mem ?_)
      intro a b ha hb hlt
      rw [mem_dedupAux] at ha hb
      have hay : a ≠ y := fun h => ha.2 (h ▸ hy)
      have hby : b ≠ y := fun h => hb.2 (h ▸ hy)
      rw [List.indexOf_cons_ne _ (fun h => hay h.symm),
        List.indexOf_cons_ne _ (fun h => hby h.symm)]
      exact Nat.succ_lt_succ hlt
    · rw [dedupAux, if_neg hy, List.pairwise_cons]
      constructor
      · intro b hb
        rw [mem_dedupAux] at hb
        have hby : b ≠ y := fun h => hb.2 (h ▸ List.mem_cons_self _ _)
        rw [List.indexOf_cons_self, List.indexOf_cons_ne _ (fun h => hby h.symm)]
        exact Nat.succ_pos _
      · refine ((pairwise_indexOf_dedupAux rest (y :: seen)).imp_of_mem ?_)
        intro a b ha hb hlt
        rw [mem_dedupAux] at ha hb
        have hay : a ≠ y := fun h => ha.2 (h ▸ List.mem_cons_self _ _)
        have hby : b ≠ y := fun h => hb.2 (h ▸ List.mem_cons_self _ _)
        rw [List.indexOf_cons_ne _ (fun h => hay h.symm),
          List.indexOf_cons_ne _ (fun h => hby h.symm)]
        exact Nat.succ_lt_succ hlt

/-! ## find_chinese_texts lemmas -/

/-- The `if text.strip()` filter in front of the deduplication is a no-op:
every raw unit is already stripped and non-empty. -/
theorem find_eq_dedup (d : Doc) :
    find_chinese_texts d = dedupAux [] (extractDoc d) := by
  unfold find_chinese_texts
  congr 1
  refine List.filter_eq_self.mpr (fun t ht => ?_)
  obtain ⟨htrim, hne, -⟩ := extractDoc_units d t ht
  simp [htrim, hne]

theorem mem_find_iff {d : Doc} {t : String} :
    t ∈ find_chinese_texts d ↔ t ∈ extractDoc d := by
  rw [find_eq_dedup, mem_dedupAux]
  simp

theorem nodup_find (d : Doc) : (find_chinese_texts d).Nodup := by
  rw [find_eq_dedup]
  exact nodup_dedupAux _ _

theorem find_sublist (d : Doc) :
    List.Sublist (find_chinese_texts d) (extractDoc d) := by
  rw [find_eq_dedup]
  exact sublist_dedupAux _ _

theorem find_units {d : Doc} {t : String} (ht : t ∈ find_chinese_texts d) :
    pyStrip t = t ∧ t ≠ "" ∧ has_chinese t = true :=
  extractDoc_units d t (mem_find_iff.mp ht)

theorem find_pairwise (d : Doc) :
    (find_chinese_texts d).Pairwise
      (fun a b => (extractDoc d).indexOf a < (extractDoc d).indexOf b) := by
  rw [find_eq_dedup]
  exact pairwise_indexOf_dedupAux _ _

/-! ## apply_translations lemmas -/

theorem nodupB_iff : ∀ l : List String, nodupB l = true ↔ l.Nodup
  | [] => by simp [nodupB]
  | x :: rest => by
    simp [nodupB, nodupB_iff rest, List.nodup_cons]

theorem applyEntries_eq_map (t : List (String × String)) :
    ∀ es : List (String × Doc),
      applyEntries t es = es.map (fun kv => (newKey t kv.1, apply_translations t kv.2))
  | [] => rfl
  | (k, v) :: rest => by
    rw [applyEntries, List.map_cons, applyEntries_eq_map t rest]

theorem applyEntries_keys (t : List (String × String)) (es : List (String × Doc)) :
    (applyEntries t es).map Prod.fst = es.map (fun kv => newKey t kv.1) := by
  rw [applyEntries_eq_map, List.map_map]
  rfl

theorem dictInsert_append : ∀ {acc : List (String × Doc)} {k : String} {v : Doc},
    k ∉ acc.map Prod.fst → dictInsert acc k v = acc ++ [(k, v)]
  | [], k, v, _ => rfl
  | (a, b) :: rest, k, v, h => by
    simp only [List.map_cons, List.mem_cons, not_or] at h
    rw [dictInsert, if_neg (fun hak => h.1 hak.symm), dictInsert_append h.2,
      List.cons_append]

theorem foldl_dictInsert_append :
    ∀ (pairs acc : List (String × Doc)),
      (pairs.map Prod.fst).Nodup →
      (∀ k ∈ pairs.map Prod.fst, k ∉ acc.map Prod.fst) →
      pairs.foldl (fun a kv => dictInsert a kv.1 kv.2) acc = acc ++ pairs
  | [], acc, _, _ => by simp
  | (k, v) :: rest, acc, hnd, hdisj => by
    rw [List.foldl_cons]
    have hk : k ∉ acc.map Prod.fst := hdisj k (by simp)
    rw [dictInsert_append hk]
    rw [List.map_cons, List.nodup_cons] at hnd
    have hdisj2 : ∀ k2 ∈ rest.map Prod.fst, k2 ∉ (acc ++ [(k, v)]).map Prod.fst := by
      intro k2 h2
      rw [List.map_append, List.mem_append]
      rintro (hmem | hmem)
      · exact hdisj k2 (by simp [h2]) hmem
      · simp only [List.map_cons, List.map_nil, List.mem_singleton] at hmem
        exact hnd.1 (hmem ▸ h2)
    rw [foldl_dictInsert_append rest (acc ++ [(k, v)]) hnd.2 hdisj2]
    simp

theorem dictBuild_eq_self {pairs : List (String × Doc)}
    (hnd : (pairs.map Prod.fst).Nodup) : dictBuild pairs = pairs := by
  unfold dictBuild
  rw [foldl_dictInsert_append pairs [] hnd (by simp)]
  simp

theorem band_true {a b : Bool} (h : (a && b) = true) : a = true ∧ b = true := by
  cases a <;> cases b <;> simp_all

/-- Unfolded form of `apply_translations` on a string leaf. -/
theorem apply_str (t : List (String × String)) (s : String) :
    apply_translations t (.str s) =
      if has_chinese s then
        match lookupS t (pyStrip s) with
        | some tr => .str tr
        | none =>
          if (pySplit s).map (fun line => (lookupS t (pyStrip line)).getD line) ≠
              (pySplit s).map pyStrip
          then .str (pyJoin ((pySplit s).map (fun line => (lookupS t (pyStrip line)).getD line)))
          else .str s
      else .str s := rfl

theorem apply_str_shape (t : List (String × String)) (s : String) :
    ∃ s2, apply_translations t (.str s) = .str s2 := by
  rw [apply_str]
  by_cases hc : has_chinese s = true
  · rw [if_pos hc]
    cases lookupS t (pyStrip s) with
    | some tr => exact ⟨tr, rfl⟩
    | none =>
      by_cases hne : (pySplit s).map (fun line => (lookupS t (pyStrip line)).getD line) ≠
          (pySplit s).map pyStrip
      · rw [if_pos hne]
        exact ⟨_, rfl⟩
      · rw [if_neg hne]
        exact ⟨s, rfl⟩
  · rw [if_neg hc]
    exact ⟨s, rfl⟩

theorem apply_str_nil_id (s : String) : apply_translations [] (.str s) = .str s := by
  rw [apply_str]
  by_cases hc : has_chinese s = true
  · rw [if_pos hc, lookupS_nil]
    have hmap : (pySplit s).map (fun line => (lookupS [] (pyStrip line)).getD line) =
        pySplit s := by
      rw [show (fun line => (lookupS [] (pyStrip line)).getD line) = (fun line => line) from
        funext (fun line => rfl)]
      exact List.map_id _
    rw [hmap]
    by_cases hne : pySplit s ≠ (pySplit s).map pyStrip
    · rw [if_pos hne, pyJoin_pySplit]
    · rw [if_neg hne]
  · rw [if_neg hc]

theorem newKey_nil (k : String) : newKey [] k = k := by
  unfold newKey
  rw [lookupS_nil]
  by_cases hc : has_chinese k = true
  · rw [if_pos hc]
    rfl
  · rw [if_neg hc]

mutual
/-- Applying the empty translation map is the identity on well-formed
documents (C10 core). -/
theorem apply_nil : ∀ (d : Doc), WFDoc d = true → apply_translations [] d = d
  | .str s, _ => apply_str_nil_id s
  | .num _, _ => rfl
  | .bool _, _ => rfl
  | .null, _ => rfl
  | .arr items, h => by
    rw [apply_translations, applyList_nil items h]
  | .obj es, h => by
    have h2 := band_true (show (nodupB (es.map Prod.fst) && WFEntries es) = true from h)
    rw [apply_translations, applyEntries_nil es h2.2,
      dictBuild_eq_self ((nodupB_iff _).mp h2.1)]

theorem applyList_nil : ∀ (l : List Doc), WFList l = true → applyList [] l = l
  | [], _ => rfl
  | d :: rest, h => by
    have h2 := band_true (show (WFDoc d && WFList rest) = true from h)
    rw [applyList, apply_nil d h2.1, applyList_nil rest h2.2]

theorem applyEntries_nil : ∀ (es : List (String × Doc)), WFEntries es = true →
    applyEntries [] es = es
  | [], _ => rfl
  | (k, v) :: rest, h => by
    have h2 := band_true (show (WFDoc v && WFEntries rest) = true from h)
    rw [applyEntries, newKey_nil, apply_nil v h2.1, applyEntries_nil rest h2.2]
end

mutual
/-- Applying a map of identity pairs that covers every CJK unit of a trimmed,
well-formed document is the identity (C1 core). -/
theorem apply_id : ∀ (m : List (String × String)) (d : Doc),
    (∀ p ∈ m, p.1 = p.2) → WFDoc d = true → trimmedCJK d = true →
    coveredCJK m d = true → apply_translations m d = d
  | m, .str s, hid, _, htr, hcov => by
    by_cases hc : has_chinese s = true
    · have hcov2 : (lookupS m (pyStrip s)).isSome = true := by
        have h0 : (!has_chinese s || (lookupS m (pyStrip s)).isSome) = true := hcov
        rw [hc] at h0
        simpa using h0
      obtain ⟨v, hv⟩ := Option.isSome_iff_exists.mp hcov2
      have hvs : v = pyStrip s := (hid _ (lookupS_mem hv)).symm
      have htr2 : pyStrip s = s := by
        have h0 : (!has_chinese s || decide (pyStrip s = s)) = true := htr
        rw [hc] at h0
        simpa using h0
      rw [apply_str, if_pos hc, hv, hvs, htr2]
    · rw [apply_str, if_neg hc]
  | _, .num _, _, _, _, _ => rfl
  | _, .bool _, _, _, _, _ => rfl
  | _, .null, _, _, _, _ => rfl
  | m, .arr items, hid, hwf, htr, hcov => by
    rw [apply_translations, applyList_id m items hid hwf htr hcov]
  | m, .obj es, hid, hwf, htr, hcov => by
    have h2 := band_true (show (nodupB (es.map Prod.fst) && WFEntries es) = true from hwf)
    rw [apply_translations, applyEntries_id m es hid h2.2 htr hcov,
      dictBuild_eq_self ((nodupB_iff _).mp h2.1)]

theorem applyList_id : ∀ (m : List (String × String)) (l : List Doc),
    (∀ p ∈ m, p.1 = p.2) → WFList l = true → trimmedCJKList l = true →
    coveredCJKList m l = true → applyList m l = l
  | _, [], _, _, _, _ => rfl
  | m, d :: rest, hid, hwf, htr, hcov => by
    have hwf2 := band_true (show (WFDoc d && WFList rest) = true from hwf)
    have htr2 := band_true (show (trimmedCJK d && trimmedCJKList rest) = true from htr)
    have hcov2 := band_true (show (coveredCJK m d && coveredCJKList m rest) = true from hcov)
    rw [applyList, apply_id m d hid hwf2.1 htr2.1 hcov2.1,
      applyList_id m rest hid hwf2.2 htr2.2 hcov2.2]

theorem applyEntries_id : ∀ (m : List (String × String)) (es : List (String × Doc)),
    (∀ p ∈ m, p.1 = p.2) → WFEntries es = true → trimmedCJKEntries es = true →
    coveredCJKEntries m es = true → applyEntries m es = es
  | _, [], _, _, _, _ => rfl
  | m, (k, v) :: rest, hid, hwf, htr, hcov => by
    have hwf2 := band_true (show (WFDoc v && WFEntries rest) = true from hwf)
    have htr2 := band_true
      (show (((!has_chinese k || decide (pyStrip k = k)) && trimmedCJK v) &&
        trimmedCJKEntries rest) = true from htr)
    have htr3 := band_true htr2.1
    have hcov2 := band_true
      (show (((!has_chinese k || (lookupS m (pyStrip k)).isSome) && coveredCJK m v) &&
        coveredCJKEntries m rest) = true from hcov)
    have hcov3 := band_true hcov2.1
    have hk : newKey m k = k := by
      unfold newKey
      by_cases hck : has_chinese k = true
      · rw [if_pos hck]
        have hsome : (lookupS m (pyStrip k)).isSome = true := by
          have h0 := hcov3.1
          rw [hck] at h0
          simpa using h0
        obtain ⟨v2, hv2⟩ := Option.isSome_iff_exists.mp hsome
        have hveq : v2 = pyStrip k := (hid _ (lookupS_mem hv2)).symm
        have htrk : pyStrip k = k := by
          have h0 := htr3.1
          rw [hck] at h0
          simpa using h0
        rw [hv2, Option.getD_some, hveq, htrk]
      · rw [if_neg hck]
    rw [applyEntries, hk, apply_id m v hid hwf2.1 htr3.2 hcov3.2,
      applyEntries_id m rest hid hwf2.2 htr2.2 hcov2.2]
end

mutual
/-- A map whose keys include every extracted raw unit covers the document. -/
theorem coveredCJK_of_extract : ∀ (m : List (String × String)) (d : Doc),
    (∀ t ∈ extractDoc d, (lookupS m t).isSome = true) → coveredCJK m d = true
  | m, .str s, h => by
    show (!has_chinese s || (lookupS m (pyStrip s)).isSome) = true
    by_cases hc : has_chinese s = true
    · have := h (pyStrip s) (block_mem_extractDoc hc)
      simp [hc, this]
    · rw [Bool.not_eq_true] at hc
      simp [hc]
  | _, .num _, _ => rfl
  | _, .bool _, _ => rfl
  | _, .null, _ => rfl
  | m, .arr items, h => coveredCJKList_of_extract m items (fun t ht => h t ht)
  | m, .obj es, h => coveredCJKEntries_of_extract m es (fun t ht => h t ht)

theorem coveredCJKList_of_extract : ∀ (m : List (String × String)) (l : List Doc),
    (∀ t ∈ extractList l, (lookupS m t).isSome = true) → coveredCJKList m l = true
  | _, [], _ => rfl
  | m, d :: rest, h => by
    show (coveredCJK m d && coveredCJKList m rest) = true
    rw [Bool.and_eq_true]
    constructor
    · exact coveredCJK_of_extract m d
        (fun t ht => h t (by rw [extractList]; exact List.mem_append_left _ ht))
    · exact coveredCJKList_of_extract m rest
        (fun t ht => h t (by rw [extractList]; exact List.mem_append_right _ ht))

theorem coveredCJKEntries_of_extract : ∀ (m : List (String × String))
    (es : List (String × Doc)),
    (∀ t ∈ extractEntries es, (lookupS m t).isSome = true) → coveredCJKEntries m es = true
  | _, [], _ => rfl
  | m, (k, v) :: rest, h => by
    show (((!has_chinese k || (lookupS m (pyStrip k)).isSome) && coveredCJK m v) &&
      coveredCJKEntries m rest) = true
    rw [Bool.and_eq_true, Bool.and_eq_true]
    refine ⟨⟨?_, ?_⟩, ?_⟩
    · by_cases hck : has_chinese k = true
      · have := h (pyStrip k) (key_mem_extractEntries v rest hck)
        simp [hck, this]
      · rw [Bool.not_eq_true] at hck
        simp [hck]
    · exact coveredCJK_of_extract m v (fun t ht => h t
        (by rw [extractEntries]
            exact List.mem_append_left _ (List.mem_append_right _ ht)))
    · exact coveredCJKEntries_of_extract m rest (fun t ht => h t
        (by rw [extractEntries]; exact List.mem_append_right _ ht))
end

mutual
/-- Substitution preserves shape whenever translated dictionary keys do not
collide (C2 core). -/
theorem sameShape_apply : ∀ (t : List (String × String)) (d : Doc),
    noCollide t d = true → sameShape t d (apply_translations t d)
  | t, .str s, _ => by
    obtain ⟨s2, hs2⟩ := apply_str_shape t s
    rw [hs2]
    trivial
  | t, .num n, _ => by
    rw [apply_translations]
    exact rfl
  | t, .bool b, _ => by
    rw [apply_translations]
    exact rfl
  | t, .null, _ => by
    rw [apply_translations]
    trivial
  | t, .arr items, h => by
    rw [apply_translations]
    exact sameShapeList_apply t items h
  | t, .obj es, h => by
    have h2 := band_true
      (show (nodupB (es.map (fun kv => newKey t kv.1)) && noCollideEntries t es) = true from h)
    rw [apply_translations]
    have hkeys : ((applyEntries t es).map Prod.fst).Nodup := by
      rw [applyEntries_keys]
      exact (nodupB_iff _).mp h2.1
    rw [dictBuild_eq_self hkeys]
    exact sameShapeEntries_apply t es h2.2

theorem sameShapeList_apply : ∀ (t : List (String × String)) (l : List Doc),
    noCollideList t l = true → sameShapeList t l (applyList t l)
  | _, [], _ => trivial
  | t, d :: rest, h => by
    have h2 := band_true (show (noCollide t d && noCollideList t rest) = true from h)
    rw [applyList]
    exact ⟨sameShape_apply t d h2.1, sameShapeList_apply t rest h2.2⟩

theorem sameShapeEntries_apply : ∀ (t : List (String × String)) (es : List (String × Doc)),
    noCollideEntries t es = true → sameShapeEntries t es (applyEntries t es)
  | _, [], _ => trivial
  | t, (k, v) :: rest, h => by
    have h2 := band_true (show (noCollide t v && noCollideEntries t rest) = true from h)
    rw [applyEntries]
    exact ⟨rfl, sameShape_apply t v h2.1, sameShapeEntries_apply t rest h2.2⟩
end

mutual
/-- Shape-equal documents have equal nesting depth. -/
theorem sameShape_depth : ∀ (t : List (String × String)) (a b : Doc),
    sameShape t a b → depth a = depth b
  | _, .str _, b, h => by
    cases b
    case str => rfl
    all_goals exact False.elim h
  | _, .num _, b, h => by
    cases b
    case num => rfl
    all_goals exact False.elim h
  | _, .bool _, b, h => by
    cases b
    case bool => rfl
    all_goals exact False.elim h
  | _, .null, b, h => by
    cases b
    case null => rfl
    all_goals exact False.elim h
  | t, .arr xs, b, h => by
    cases b
    case arr ys =>
      show 1 + depthList xs = 1 + depthList ys
      rw [sameShapeList_depth t xs ys h]
    all_goals exact False.elim h
  | t, .obj es, b, h => by
    cases b
    case obj fs =>
      show 1 + depthEntries es = 1 + depthEntries fs
      rw [sameShapeEntries_depth t es fs h]
    all_goals exact False.elim h

theorem sameShapeList_depth : ∀ (t : List (String × String)) (xs ys : List Doc),
    sameShapeList t xs ys → depthList xs = depthList ys
  | _, [], ys, h => by
    cases ys
    · rfl
    · exact False.elim h
  | t, x :: xs, ys, h => by
    cases ys with
    | nil => exact False.elim h
    | cons y ys2 =>
      obtain ⟨h1, h2⟩ := (h : sameShape t x y ∧ sameShapeList t xs ys2)
      show max (depth x) (depthList xs) = max (depth y) (depthList ys2)
      rw [sameShape_depth t x y h1, sameShapeList_depth t xs ys2 h2]

theorem sameShapeEntries_depth : ∀ (t : List (String × String))
    (es fs : List (String × Doc)), sameShapeEntries t es fs → depthEntries es = depthEntries fs
  | _, [], fs, h => by
    cases fs
    · rfl
    · exact False.elim h
  | t, (k, v) :: es, fs, h => by
    cases fs with
    | nil => exact False.elim h
    | cons p fs2 =>
      obtain ⟨k2, v2⟩ := p
      obtain ⟨-, h1, h2⟩ :=
        (h : k2 = newKey t k ∧ sameShape t v v2 ∧ sameShapeEntries t es fs2)
      show max (depth v) (depthEntries es) = max (depth v2) (depthEntries fs2)
      rw [sameShape_depth t v v2 h1, sameShapeEntries_depth t es fs2 h2]
end

mutual
/-- A document with an empty raw unit stream has no CJK dictionary keys. -/
theorem noCJKKeys_of_extract_nil : ∀ (d : Doc), extractDoc d = [] → noCJKKeys d = true
  | .str _, _ => rfl
  | .num _, _ => rfl
  | .bool _, _ => rfl
  | .null, _ => rfl
  | .arr items, h => noCJKKeysList_of_extract_nil items h
  | .obj es, h => noCJKKeysEntries_of_extract_nil es h

theorem noCJKKeysList_of_extract_nil : ∀ (l : List Doc),
    extractList l = [] → noCJKKeysList l = true
  | [], _ => rfl
  | d :: rest, h => by
    rw [extractList] at h
    have h2 := List.append_eq_nil.mp h
    show (noCJKKeys d && noCJKKeysList rest) = true
    rw [Bool.and_eq_true]
    exact ⟨noCJKKeys_of_extract_nil d h2.1, noCJKKeysList_of_extract_nil rest h2.2⟩

theorem noCJKKeysEntries_of_extract_nil : ∀ (es : List (String × Doc)),
    extractEntries es = [] → noCJKKeysEntries es = true
  | [], _ => rfl
  | (k, v) :: rest, h => by
    rw [extractEntries] at h
    have h2 := List.append_eq_nil.mp h
    have h3 := List.append_eq_nil.mp h2.1
    show ((!has_chinese k && noCJKKeys v) && noCJKKeysEntries rest) = true
    rw [Bool.and_eq_true, Bool.and_eq_true]
    refine ⟨⟨?_, noCJKKeys_of_extract_nil v h3.2⟩, noCJKKeysEntries_of_extract_nil rest h2.2⟩
    by_cases hck : has_chinese k = true
    · exfalso
      have hkl := h3.1
      rw [if_pos ⟨hck, pyStrip_ne_empty_of_chinese hck⟩] at hkl
      cases hkl
    · rw [Bool.not_eq_true] at hck
      simp [hck]
end

mutual
/-- Shape equality is reflexive on documents without CJK dictionary keys. -/
theorem sameShape_refl_noCJKKeys : ∀ (t : List (String × String)) (d : Doc),
    noCJKKeys d = true → sameShape t d d
  | _, .str _, _ => trivial
  | _, .num _, _ => rfl
  | _, .bool _, _ => rfl
  | _, .null, _ => trivial
  | t, .arr items, h => sameShapeList_refl_noCJKKeys t items h
  | t, .obj es, h => sameShapeEntries_refl_noCJKKeys t es h

theorem sameShapeList_refl_noCJKKeys : ∀ (t : List (String × String)) (l : List Doc),
    noCJKKeysList l = true → sameShapeList t l l
  | _, [], _ => trivial
  | t, d :: rest, h => by
    have h2 := band_true (show (noCJKKeys d && noCJKKeysList rest) = true from h)
    exact ⟨sameShape_refl_noCJKKeys t d h2.1, sameShapeList_refl_noCJKKeys t rest h2.2⟩

theorem sameShapeEntries_refl_noCJKKeys : ∀ (t : List (String × String))
    (es : List (String × Doc)), noCJKKeysEntries es = true → sameShapeEntries t es es
  | _, [], _ => trivial
  | t, (k, v) :: rest, h => by
    have h2 := band_true
      (show ((!has_chinese k && noCJKKeys v) && noCJKKeysEntries rest) = true from h)
    have h3 := band_true h2.1
    have hk : newKey t k = k := by
      unfold newKey
      rw [if_neg ?_]
      have h0 := h3.1
      simp only [Bool.not_eq_true'] at h0
      simp [h0]
    exact ⟨hk.symm, sameShape_refl_noCJKKeys t v h3.2,
      sameShapeEntries_refl_noCJKKeys t rest h2.2⟩
end

/-! ## Orchestrator lemmas -/

theorem translate_json_unfold (oracle : Nat → Option String) (d : Doc) :
    translate_json oracle d =
      if (find_chinese_texts d).isEmpty then d
      else apply_translations (batch_translate oracle (find_chinese_texts d)) d := rfl

theorem translate_json_of_empty {d : Doc} (h : find_chinese_texts d = [])
    (oracle : Nat → Option String) : translate_json oracle d = d := by
  rw [translate_json_unfold, h]
  rfl

theorem translate_json_of_nonempty {d : Doc} (h : find_chinese_texts d ≠ [])
    (oracle : Nat → Option String) :
    translate_json oracle d =
      apply_translations (batch_translate oracle (find_chinese_texts d)) d := by
  rw [translate_json_unfold, if_neg (by simpa [List.isEmpty_iff] using h)]

theorem extract_nil_of_find_nil {d : Doc} (h : find_chinese_texts d = []) :
    extractDoc d = [] := by
  by_contra hne
  obtain ⟨t, ht⟩ := List.exists_mem_of_ne_nil _ hne
  have : t ∈ find_chinese_texts d := mem_find_iff.mpr ht
  rw [h] at this
  cases this

/-- Orchestrator under total remote failure: identity on trimmed well-formed
documents. -/
theorem translate_json_all_fail_id {d : Doc} (hwf : WFDoc d = true)
    (htr : trimmedCJK d = true) : translate_json (fun _ => none) d = d := by
  by_cases hfind : find_chinese_texts d = []
  · exact translate_json_of_empty hfind _
  · rw [translate_json_of_nonempty hfind]
    refine apply_id _ d (fun p hp => batch_translate_none_pairs p hp) hwf htr ?_
    refine coveredCJK_of_extract _ d (fun t ht => ?_)
    exact isSome_batch_translate _ (mem_find_iff.mpr ht)

/-! ## Merge-order independence lemmas (C9) -/

theorem pairwise_enumFrom {α : Type} {R : α → α → Prop} :
    ∀ {l : List α} (n : Nat), l.Pairwise R →
      (l.enumFrom n).Pairwise (fun p q => R p.2 q.2)
  | [], _, _ => List.Pairwise.nil
  | x :: rest, n, h => by
    rw [List.pairwise_cons] at h
    show ((n, x) :: rest.enumFrom (n + 1)).Pairwise _
    rw [List.pairwise_cons]
    refine ⟨?_, pairwise_enumFrom (n + 1) h.2⟩
    intro q hq
    have hq2 : q.2 ∈ rest := by
      have hmap := List.enumFrom_map_snd (n + 1) rest
      rw [← hmap]
      exact List.mem_map_of_mem _ hq
    exact h.1 q.2 hq2

/-- The per-batch maps have pairwise disjoint key sets whenever the unit list
is duplicate-free. -/
theorem batchMaps_pairwise_disj (oracle : Nat → Option String) {texts : List String}
    (hnd : texts.Nodup) : (batchMaps oracle texts).Pairwise mapsDisj := by
  have hflat : (pyChunk texts).flatten.Nodup := by
    rw [pyChunk_flatten]
    exact hnd
  have hchunks : (pyChunk texts).Pairwise List.Disjoint :=
    (List.nodup_flatten.mp hflat).2
  have henum : ((pyChunk texts).enumFrom 0).Pairwise
      (fun p q => List.Disjoint p.2 q.2) := pairwise_enumFrom 0 hchunks
  refine List.Pairwise.map _ ?_ henum
  intro p q hpq k ⟨h1, h2⟩
  obtain ⟨v1, hv1⟩ := Option.isSome_iff_exists.mp h1
  obtain ⟨v2, hv2⟩ := Option.isSome_iff_exists.mp h2
  have hk1 : k ∈ p.2 := translate_batch_keys (k, v1) (lookupS_mem hv1)
  have hk2 : k ∈ q.2 := translate_batch_keys (k, v2) (lookupS_mem hv2)
  exact hpq hk1 hk2

theorem mapsDisj_symm : Symmetric mapsDisj := by
  intro m₁ m₂ h k hk
  exact h k ⟨hk.2, hk.1⟩

/-- Merging key-disjoint per-batch maps is independent of merge order. -/
theorem merge_perm_invariant :
    ∀ {ms ms2 : List (List (String × String))},
      ms.Perm ms2 →
      (∀ m ∈ ms, (m.map Prod.fst).Nodup) →
      ms.Pairwise mapsDisj →
      ∀ k, lookupS (mergeMaps ms2) k = lookupS (mergeMaps ms) k := by
  intro ms ms2 hperm
  induction hperm with
  | nil => intro _ _ k; rfl
  | cons x hp ih =>
    intro hnd hpair k
    rename_i l₁ l₂
    have hnd1 : ∀ m ∈ l₁, (m.map Prod.fst).Nodup :=
      fun m hm => hnd m (List.mem_cons_of_mem _ hm)
    have hnd2 : ∀ m ∈ l₂, (m.map Prod.fst).Nodup :=
      fun m hm => hnd1 m (hp.mem_iff.mpr hm)
    have hpair1 : l₁.Pairwise mapsDisj := (List.pairwise_cons.mp hpair).2
    rw [lookupS_mergeMaps_cons (hnd x (List.mem_cons_self _ _)) hnd2 k,
      lookupS_mergeMaps_cons (hnd x (List.mem_cons_self _ _)) hnd1 k,
      ih hnd1 hpair1 k]
  | swap x y l =>
    intro hnd hpair k
    have hndl : ∀ m ∈ l, (m.map Prod.fst).Nodup :=
      fun m hm => hnd m (List.mem_cons_of_mem _ (List.mem_cons_of_mem _ hm))
    have hndx : (x.map Prod.fst).Nodup :=
      hnd x (List.mem_cons_of_mem _ (List.mem_cons_self _ _))
    have hndy : (y.map Prod.fst).Nodup := hnd y (List.mem_cons_self _ _)
    have hxy : mapsDisj y x := (List.pairwise_cons.mp hpair).1 x (List.mem_cons_self _ _)
    rw [lookupS_mergeMaps_cons hndx (fun m hm => by
        rcases List.mem_cons.mp hm with rfl | hm
        · exact hndy
        · exact hndl m hm) k,
      lookupS_mergeMaps_cons hndy hndl k,
      lookupS_mergeMaps_cons hndy (fun m hm => by
        rcases List.mem_cons.mp hm with rfl | hm
        · exact hndx
        · exact hndl m hm) k,
      lookupS_mergeMaps_cons hndx hndl k]
    cases hm : lookupS (mergeMaps l) k
    · cases hx : lookupS x k with
      | none =>
        cases hy : lookupS y k <;> rfl
      | some vx =>
        cases hy : lookupS y k with
        | none => rfl
        | some vy =>
          exfalso
          exact hxy k ⟨by rw [hy]; rfl, by rw [hx]; rfl⟩
    · rfl
  | trans hp1 hp2 ih1 ih2 =>
    intro hnd hpair k
    rename_i l₁ l₂ l₃
    have hnd2 : ∀ m ∈ l₂, (m.map Prod.fst).Nodup :=
      fun m hm => hnd m (hp1.mem_iff.mpr hm)
    have hpair2 : l₂.Pairwise mapsDisj :=
      (hp1.pairwise_iff (fun h => mapsDisj_symm h)).mp hpair
    rw [ih2 hnd2 hpair2 k, ih1 hnd hpair k]

/-! ## Response-parse placement lemmas (C4) -/

theorem parseStep_some (texts : List String) (acc : List (String × String))
    {line : String} {n : Nat} {tr : String} (h : parseLine line = some (n, tr)) :
    parseStep texts acc line =
      if n = 0 then
        match texts.getLast? with
        | some t => strInsert acc t tr
        | none => acc
      else if n - 1 < texts.length then
        match texts.get? (n - 1) with
        | some t => strInsert acc t tr
        | none => acc
      else acc := by
  unfold parseStep
  rw [h]

theorem parseStep_ignored {texts : List String} {line : String}
    (h : parseLine line = none ∨
      ∃ n tr, parseLine line = some (n, tr) ∧ n > texts.length)
    (acc : List (String × String)) : parseStep texts acc line = acc := by
  rcases h with h | ⟨n, tr, h, hn⟩
  · unfold parseStep
    rw [h]
  · rw [parseStep_some texts acc h]
    have hn0 : ¬ n = 0 := by omega
    rw [if_neg hn0, if_neg (by omega)]

theorem parseResponse_skip (texts : List String) (ls₁ ls₂ : List String) {line : String}
    (h : parseLine line = none ∨
      ∃ n tr, parseLine line = some (n, tr) ∧ n > texts.length)
    (acc : List (String × String)) :
    (ls₁ ++ line :: ls₂).foldl (parseStep texts) acc =
      (ls₁ ++ ls₂).foldl (parseStep texts) acc := by
  rw [List.foldl_append, List.foldl_append, List.foldl_cons, parseStep_ignored h]

theorem parseStep_zero {texts : List String} {line tr tl : String}
    (h : parseLine line = some (0, tr)) (hlast : texts.getLast? = some tl)
    (acc : List (String × String)) :
    parseStep texts acc line = strInsert acc tl tr := by
  rw [parseStep_some texts acc h, if_pos rfl, hlast]

theorem parseStep_inrange {texts : List String} {line tr t : String} {n : Nat}
    (h : parseLine line = some (n, tr)) (hn : 1 ≤ n)
    (hget : texts.get? (n - 1) = some t) (acc : List (String × String)) :
    parseStep texts acc line = strInsert acc t tr := by
  have hlen : n - 1 < texts.length := by
    obtain ⟨hb, -⟩ := List.get?_eq_some.mp hget
    exact hb
  rw [parseStep_some texts acc h, if_neg (by omega), if_pos hlen, hget]

/-! ## Line-level lemmas (C8) -/

theorem lookupS_none_of_chinese_keys {m : List (String × String)}
    (hkeys : ∀ p ∈ m, has_chinese p.1 = true) {l : String}
    (hl : has_chinese l = false) : lookupS m (pyStrip l) = none := by
  refine lookupS_eq_none_of_keys (fun p hp heq => ?_)
  have h1 := hkeys p hp
  rw [heq] at h1
  have h2 := has_chinese_of_pyStrip h1
  rw [hl] at h2
  cases h2

theorem forall2_map_right {α β : Type} (P : α → β → Prop) (f : α → β) :
    ∀ l : List α, (∀ a ∈ l, P a (f a)) → List.Forall₂ P l (l.map f)
  | [], _ => List.Forall₂.nil
  | a :: rest, h => by
    rw [List.map_cons]
    exact List.Forall₂.cons (h a (List.mem_cons_self _ _))
      (forall2_map_right P f rest (fun b hb => h b (List.mem_cons_of_mem _ hb)))

/-- Every key of a pipeline-produced translation map contains CJK. -/
theorem batch_translate_keys_chinese (oracle : Nat → Option String) (d : Doc) :
    ∀ p ∈ batch_translate oracle (find_chinese_texts d), has_chinese p.1 = true := by
  intro p hp
  have h1 := batch_translate_pairs_keys p hp
  exact (find_units h1).2.2

/-! ## Claim theorems -/

/-- C1 (counterexample): with every batch call raising, `translate_json` is
not value-equal to the input on a document whose CJK leaf carries surrounding
whitespace: the leaf comes back stripped (`" 中 "` becomes `"中"`), so the
claim as stated is false. -/
theorem C1_counterexample :
    translate_json (fun _ => none) (Doc.obj [("k", Doc.str " 中 ")]) ≠
      Doc.obj [("k", Doc.str " 中 ")] := by decide

/-- C1 (amended): if the remote endpoint is unreachable for all batches
(every batch yields its identity fallback), then for every well-formed
document whose CJK leaves and CJK keys carry no surrounding whitespace,
`translate_json` returns a document value-equal to the input. -/
theorem C1_fallback (d : Doc) (oracle : Nat → Option String)
    (hfail : ∀ i, oracle i = none) (hwf : WFDoc d = true)
    (htr : trimmedCJK d = true) : translate_json oracle d = d := by
  have hfn : oracle = fun _ => none := funext hfail
  rw [hfn]
  exact translate_json_all_fail_id hwf htr

/-- C1 (witness): concrete all-fail run returning the document unchanged. -/
theorem C1_witness :
    translate_json (fun _ => none) (Doc.obj [("名", Doc.str "中文")]) =
      Doc.obj [("名", Doc.str "中文")] :=
  C1_fallback _ _ (fun _ => rfl) (by decide) (by decide)

/-- C2 (counterexample): `apply_translations` does not preserve shape for
every document and map: when two CJK keys of one dictionary translate to the
same key, the rebuilt dict collapses and the nesting depth changes. -/
theorem C2_counterexample :
    depth (apply_translations [("甲", "X"), ("乙", "X")]
      (Doc.obj [("甲", Doc.arr [Doc.arr [Doc.num 1]]), ("乙", Doc.num 2)])) ≠
    depth (Doc.obj [("甲", Doc.arr [Doc.arr [Doc.num 1]]), ("乙", Doc.num 2)]) := by
  decide

/-- C2 (amended): whenever the translated keys of every dictionary of the
document stay pairwise distinct, `apply_translations` preserves shape: same
constructors, same list lengths, dictionary keys replaced through `newKey`
(so only CJK-containing keys change), numbers/booleans/nulls unchanged, only
string leaf content free — and nesting depth is preserved. -/
theorem C2_shape (d : Doc) (t : List (String × String)) (h : noCollide t d = true) :
    sameShape t d (apply_translations t d) ∧
      depth (apply_translations t d) = depth d :=
  ⟨sameShape_apply t d h, (sameShape_depth t d _ (sameShape_apply t d h)).symm⟩

/-- C2 (witness): concrete shape-preserving application. -/
theorem C2_witness :
    sameShape [("甲", "A"), ("乙", "B")] (Doc.obj [("甲", Doc.num 1)])
      (apply_translations [("甲", "A"), ("乙", "B")] (Doc.obj [("甲", Doc.num 1)])) ∧
    depth (apply_translations [("甲", "A"), ("乙", "B")] (Doc.obj [("甲", Doc.num 1)])) =
      depth (Doc.obj [("甲", Doc.num 1)]) :=
  C2_shape _ _ (by decide)

/-- C3: for every non-empty batch and every response (including exceptions,
modelled by `none`), the map returned by `translate_batch` has an entry for
every batch text; on total failure each entry is the original text; and the
merged `batch_translate` map covers every extracted unit of any document. -/
theorem C3_coverage :
    (∀ (texts : List String) (r : Option String) (t : String), texts ≠ [] → t ∈ texts →
        (lookupS (translate_batch texts r) t).isSome = true) ∧
    (∀ (texts : List String) (t : String), texts ≠ [] → t ∈ texts →
        lookupS (translate_batch texts none) t = some t) ∧
    (∀ (d : Doc) (oracle : Nat → Option String) (t : String), t ∈ find_chinese_texts d →
        (lookupS (batch_translate oracle (find_chinese_texts d)) t).isSome = true) := by
  refine ⟨?_, ?_, ?_⟩
  · intro texts r t hne ht
    exact isSome_translate_batch (by simpa [List.isEmpty_iff] using hne) r ht
  · intro texts t hne ht
    exact translate_batch_none_id (by simpa [List.isEmpty_iff] using hne) ht
  · intro d oracle t ht
    exact isSome_batch_translate oracle ht

/-- C3 (witness): concrete coverage checks. -/
theorem C3_witness :
    (lookupS (translate_batch ["甲"] (some "1. One")) "甲").isSome = true ∧
    lookupS (translate_batch ["甲"] none) "甲" = some "甲" ∧
    (lookupS (batch_translate (fun _ => none) (find_chinese_texts (Doc.str "甲")))
      "甲").isSome = true :=
  ⟨C3_coverage.1 ["甲"] (some "1. One") "甲" (by decide) (by decide),
   C3_coverage.2.1 ["甲"] "甲" (by decide) (by decide),
   C3_coverage.2.2 (Doc.str "甲") (fun _ => none) "甲" (by decide)⟩

/-- C4 (code evaluated at the failing input): for the batch `["甲", "乙"]`
and the response body `"0. Zero"`, whose parsed index 0 is outside the range
1..2 and hence should be ignored per the claim, the code assigns the
translation to the LAST batch item through Python negative indexing
(`index = -1` passes the `index < len(texts)` guard and selects
`texts[-1] = "乙"`), so `"乙"` maps to `"Zero"` instead of falling back to
`"乙"`; the first item, with no matching line, falls back to itself. -/
theorem C4_eval :
    lookupS (translate_batch ["甲", "乙"] (some "0. Zero")) "乙" = some "Zero" ∧
    lookupS (translate_batch ["甲", "乙"] (some "0. Zero")) "甲" = some "甲" := by
  decide

/-- C5 (counterexample): on the empty document the public entry point
returns `None`, not the original document unchanged, so the claim as stated
is false. -/
theorem C5_counterexample :
    extract_and_translate_astrology_result (fun _ => none) (Doc.obj []) ≠
      some (Doc.obj []) := by decide

/-- C5 (amended): for every truthy (non-empty) document the entry point
returns `some` translated document and never raises; if no CJK text is
found it returns the original unchanged; and the result has the same shape
as the input whenever the translated dictionary keys do not collide. -/
theorem C5_entrypoint (d : Doc) (oracle : Nat → Option String)
    (hne : pyTruthy d = true) :
    extract_and_translate_astrology_result oracle d = some (translate_json oracle d) ∧
    (find_chinese_texts d = [] → extract_and_translate_astrology_result oracle d = some d) ∧
    (noCollide (batch_translate oracle (find_chinese_texts d)) d = true →
      sameShape (batch_translate oracle (find_chinese_texts d)) d
        (translate_json oracle d)) := by
  refine ⟨?_, ?_, ?_⟩
  · unfold extract_and_translate_astrology_result
    rw [if_pos hne]
  · intro h
    unfold extract_and_translate_astrology_result
    rw [if_pos hne, translate_json_of_empty h]
  · intro h
    by_cases hfind : find_chinese_texts d = []
    · rw [translate_json_of_empty hfind]
      exact sameShape_refl_noCJKKeys _ d
        (noCJKKeys_of_extract_nil d (extract_nil_of_find_nil hfind))
    · rw [translate_json_of_nonempty hfind]
      exact sameShape_apply _ d h

/-- C5 (witness): concrete run of the entry point. -/
theorem C5_witness :
    extract_and_translate_astrology_result (fun _ => none)
        (Doc.obj [("k", Doc.str "中")]) =
      some (translate_json (fun _ => none) (Doc.obj [("k", Doc.str "中")])) ∧
    sameShape (batch_translate (fun _ => none)
        (find_chinese_texts (Doc.obj [("k", Doc.str "中")])))
      (Doc.obj [("k", Doc.str "中")])
      (translate_json (fun _ => none) (Doc.obj [("k", Doc.str "中")])) :=
  ⟨(C5_entrypoint _ _ (by decide)).1, (C5_entrypoint _ _ (by decide)).2.2 (by decide)⟩

/-- C6: `find_chinese_texts` returns a duplicate-free list whose membership
is exactly the raw extracted unit stream of the depth-first traversal
(dictionary keys stripped, each qualifying stripped line of a string leaf,
and the whole stripped leaf when it qualifies); every element is a
non-empty, trimmed, CJK-containing string; the output is a sublist of the
raw stream and its elements are ordered by strictly increasing first
occurrence (`indexOf`) in the raw stream. -/
theorem C6_extraction (d : Doc) :
    (find_chinese_texts d).Nodup ∧
    List.Sublist (find_chinese_texts d) (extractDoc d) ∧
    (∀ t, t ∈ find_chinese_texts d ↔ t ∈ extractDoc d) ∧
    (∀ t ∈ find_chinese_texts d, pyStrip t = t ∧ t ≠ "" ∧ has_chinese t = true) ∧
    (find_chinese_texts d).Pairwise
      (fun a b => (extractDoc d).indexOf a < (extractDoc d).indexOf b) :=
  ⟨nodup_find d, find_sublist d, fun _ => mem_find_iff,
   fun _ ht => find_units ht, find_pairwise d⟩

/-- C6 (witness): concrete extraction facts on a multi-line leaf that
produces both per-line units and the whole-block unit. -/
theorem C6_witness :
    (find_chinese_texts (Doc.str "中文\n 中文 \nabc")).Nodup ∧
    ("中文" ∈ find_chinese_texts (Doc.str "中文\n 中文 \nabc") ↔
      "中文" ∈ extractDoc (Doc.str "中文\n 中文 \nabc")) ∧
    (pyStrip "中文" = "中文" ∧ "中文" ≠ "" ∧ has_chinese "中文" = true) :=
  ⟨(C6_extraction (Doc.str "中文\n 中文 \nabc")).1,
   (C6_extraction (Doc.str "中文\n 中文 \nabc")).2.2.1 "中文",
   (C6_extraction (Doc.str "中文\n 中文 \nabc")).2.2.2.1 "中文" (by decide)⟩

/-- C7: if extraction yields no units, `translate_json` returns the input
unchanged for EVERY oracle — the result does not depend on the remote
endpoint at all, which is the observable content of the batch translator
never being invoked. -/
theorem C7_noop (d : Doc) (h : find_chinese_texts d = [])
    (oracle : Nat → Option String) : translate_json oracle d = d :=
  translate_json_of_empty h oracle

/-- C7 (witness): the spec scenario input without CJK, under an oracle that
would corrupt any batch it were asked. -/
theorem C7_witness :
    translate_json (fun _ => some "1. junk")
        (Doc.obj [("score", Doc.num 42), ("empty", Doc.str "")]) =
      Doc.obj [("score", Doc.num 42), ("empty", Doc.str "")] :=
  C7_noop _ (by decide) _

/-- C8 (counterexample): the claim fails as stated because the whole-block
match pre-empts line-level lookup: the pipeline itself produces a map
containing the whole multi-line leaf, and applying it replaces the entire
leaf, losing the non-qualifying line `"abc"`. -/
theorem C8_counterexample :
    apply_translations
      (batch_translate (fun _ => some "1. Chinese\n2. XYZ")
        (find_chinese_texts (Doc.str "中文\nabc")))
      (Doc.str "中文\nabc") = Doc.str "XYZ" ∧
    "abc" ∉ pySplit "XYZ" := by decide

/-- C8 (amended): when the whole stripped leaf is NOT a key of the map (and
the map has only CJK keys, as every pipeline map does), per-line behaviour
is as claimed: every non-CJK line maps to itself at its own position (lines
are processed positionally by `map`, so order and count are preserved), and
the leaf is replaced exactly when some looked-up line differs from its
stripped original, otherwise the original string object is returned. -/
theorem C8_line_roundtrip (m : List (String × String)) (s : String)
    (hkeys : ∀ p ∈ m, has_chinese p.1 = true) (hc : has_chinese s = true)
    (hwhole : lookupS m (pyStrip s) = none) :
    List.Forall₂ (fun line tr2 => has_chinese line = false → tr2 = line)
      (pySplit s) ((pySplit s).map (fun line => (lookupS m (pyStrip line)).getD line)) ∧
    ((pySplit s).map (fun line => (lookupS m (pyStrip line)).getD line)).length =
      (pySplit s).length ∧
    apply_translations m (.str s) =
      (if (pySplit s).map (fun line => (lookupS m (pyStrip line)).getD line) ≠
          (pySplit s).map pyStrip
       then .str (pyJoin ((pySplit s).map (fun line => (lookupS m (pyStrip line)).getD line)))
       else .str s) := by
  refine ⟨?_, List.length_map _ _, ?_⟩
  · refine forall2_map_right _ _ _ (fun line _ hl => ?_)
    rw [lookupS_none_of_chinese_keys hkeys hl]
    rfl
  · rw [apply_str, if_pos hc, hwhole]

/-- C8 (witness): concrete mixed-language leaf with no whole-block entry. -/
theorem C8_witness :
    List.Forall₂ (fun line tr2 => has_chinese line = false → tr2 = line)
      (pySplit "中文\nabc")
      ((pySplit "中文\nabc").map
        (fun line => (lookupS [("中文", "Chinese")] (pyStrip line)).getD line)) ∧
    ((pySplit "中文\nabc").map
        (fun line => (lookupS [("中文", "Chinese")] (pyStrip line)).getD line)).length =
      (pySplit "中文\nabc").length ∧
    apply_translations [("中文", "Chinese")] (.str "中文\nabc") =
      (if (pySplit "中文\nabc").map
            (fun line => (lookupS [("中文", "Chinese")] (pyStrip line)).getD line) ≠
          (pySplit "中文\nabc").map pyStrip
       then .str (pyJoin ((pySplit "中文\nabc").map
            (fun line => (lookupS [("中文", "Chinese")] (pyStrip line)).getD line)))
       else .str "中文\nabc") :=
  C8_line_roundtrip _ _ (by decide) (by decide) (by decide)

/-- C9: for a duplicate-free unit list, the per-batch result maps have
pairwise disjoint key sets; each batch map keys exactly its batch texts;
and merging any permutation of the batch maps (any completion order) gives
the same map extensionally. -/
theorem C9_merge_order (texts : List String) (oracle : Nat → Option String)
    (hnd : texts.Nodup) :
    (batchMaps oracle texts).Pairwise mapsDisj ∧
    (∀ (b : List String) (r : Option String) (t : String), b ≠ [] →
      ((lookupS (translate_batch b r) t).isSome = true ↔ t ∈ b)) ∧
    (∀ ms2, (batchMaps oracle texts).Perm ms2 →
      ∀ k, lookupS (mergeMaps ms2) k = lookupS (mergeMaps (batchMaps oracle texts)) k) := by
  refine ⟨batchMaps_pairwise_disj oracle hnd, ?_, ?_⟩
  · intro b r t hb
    exact isSome_translate_batch_iff (by simpa [List.isEmpty_iff] using hb) r t
  · intro ms2 hperm k
    refine merge_perm_invariant hperm ?_ (batchMaps_pairwise_disj oracle hnd) k
    intro m hm
    rcases List.mem_map.mp hm with ⟨⟨i, b⟩, _, rfl⟩
    exact nodupKeys_translate_batch b (oracle i)

/-- C9 (witness): three units, two batches, merged in reversed completion
order, agreeing with the task-order merge at a concrete key. -/
theorem C9_witness :
    (batchMaps (fun i => if i = 0 then some "1. A\n2. B" else none)
      ["甲", "乙", "丙"]).Pairwise mapsDisj ∧
    ((lookupS (translate_batch ["甲", "乙"] (some "1. A\n2. B")) "乙").isSome = true ↔
      "乙" ∈ ["甲", "乙"]) ∧
    lookupS (mergeMaps ((batchMaps (fun i => if i = 0 then some "1. A\n2. B" else none)
        ["甲", "乙", "丙"]).reverse)) "乙" =
      lookupS (mergeMaps (batchMaps (fun i => if i = 0 then some "1. A\n2. B" else none)
        ["甲", "乙", "丙"])) "乙" :=
  ⟨(C9_merge_order ["甲", "乙", "丙"] _ (by decide)).1,
   (C9_merge_order ["甲", "乙", "丙"] (fun i => if i = 0 then some "1. A\n2. B" else none)
      (by decide)).2.1 ["甲", "乙"] (some "1. A\n2. B") "乙" (by decide),
   (C9_merge_order ["甲", "乙", "丙"] _ (by decide)).2.2 _ (by decide) "乙"⟩

/-- C10: applying the empty translation map is the identity on every
well-formed document, including string leaves with surrounding whitespace
or CJK content (the rejoin guard hands back the original string object). -/
theorem C10_empty_map (d : Doc) (h : WFDoc d = true) :
    apply_translations [] d = d :=
  apply_nil d h

/-- C10 (witness): whitespace-laden CJK leaf survives the empty map. -/
theorem C10_witness :
    apply_translations [] (Doc.obj [("k", Doc.str " 中 \nx"), ("n", Doc.num 3)]) =
      Doc.obj [("k", Doc.str " 中 \nx"), ("n", Doc.num 3)] :=
  C10_empty_map _ (by decide)

end Fengwen
